import Mathlib

/-!
Verification of the core of `snippet2image` (src/snippet2image.py): the
line-range parser `parse_line_ranges`, the SVG highlight injector
`add_svg_highlights`, and the background-transparency post-passes of
`code_to_image`.

Modelling conventions (shallow embedding of the Python source):
* Python strings are modelled as `List Char`.  Whitespace handling is
  restricted to the ASCII whitespace characters; Python's `int`/`float`
  also accept non-ASCII decimal digits, which are outside the modelled
  input space.
* Python `int(...)` / `float(...)` are modelled by `pyInt?` / `pyFloat?`
  returning `Option`; an exception is an `Except.error`.  Floats are
  idealised as exact rationals (`ℚ`); every numeric value the program
  computes is a finite decimal, so this is faithful up to floating-point
  rounding, which no claim depends on.
* Python `set` is a `Finset`, `sorted` on a set is `Finset.sort (· ≤ ·)`.
* `re` regular expressions are given a backtracking semantics `reM`
  listing candidate matches in Python's backtracking priority order;
  `matchAt` takes the first.  `finditer`/`search`/`sub` are drivers over
  that semantics, mirroring `re`'s leftmost, non-overlapping scan.
-/

/-! ## Python string primitives -/

/-- ASCII whitespace, as recognised by `str.split()` / `str.strip()`. -/
def pyWS (c : Char) : Bool :=
  c = ' ' || c = '\t' || c = '\n' || c = '\x0d' || c = '\x0b' || c = '\x0c'

/-- Python `str.strip()` (no argument): remove leading and trailing whitespace. -/
def pyStrip (l : List Char) : List Char :=
  ((l.dropWhile pyWS).reverse.dropWhile pyWS).reverse

/-- Helper for `pySplit`: `acc` holds the reversed current token. -/
def pySplitAux : List Char → List Char → List (List Char)
  | [], acc => if acc = [] then [] else [acc.reverse]
  | c :: rest, acc =>
    if pyWS c then
      if acc = [] then pySplitAux rest []
      else acc.reverse :: pySplitAux rest []
    else pySplitAux rest (c :: acc)

/-- Python `str.split()` (no argument): split on whitespace runs, dropping
empty pieces. -/
def pySplit (l : List Char) : List (List Char) := pySplitAux l []

/-- Python `part.split('-', 1)`: the pair (text before the first hyphen,
text after it).  Only used when `'-' ∈ part`, so exactly two parts arise. -/
def splitHyphen1 (t : List Char) : List Char × List Char :=
  (t.takeWhile (fun c => c ≠ '-'), (t.dropWhile (fun c => c ≠ '-')).tail)

/-- Digit-run validity for Python numeric literals: nonempty, decimal digits
with single underscores allowed strictly between digits. -/
def isUDigits (l : List Char) : Bool :=
  !l.isEmpty && l.all (fun c => c.isDigit || c = '_') &&
    l.head? ≠ some '_' && l.getLast? ≠ some '_' &&
    (l.zip l.tail).all (fun p => !(p.1 = '_' && p.2 = '_'))

/-- Numeric value of a digit run, ignoring underscores. -/
def digitsVal (l : List Char) : Nat :=
  l.foldl (fun a c => if c = '_' then a else a * 10 + (c.toNat - 48)) 0

/-- Python `int(s)` on a string: strip whitespace, optional sign, digit run
(ASCII decimal digits, with underscore separators).  `none` models a raised
`ValueError`. -/
def pyInt? (s : List Char) : Option Int :=
  let t := pyStrip s
  if t.head? = some '+' then
    if isUDigits t.tail then some (digitsVal t.tail : Int) else none
  else if t.head? = some '-' then
    if isUDigits t.tail then some (-(digitsVal t.tail : Int)) else none
  else if isUDigits t then some (digitsVal t : Int) else none

/-! ## The line-range parser (`parse_line_ranges`, src/snippet2image.py:19-62) -/

/-- Error taxonomy of `parse_line_ranges`, distinguishing the three
`ValueError` messages raised by the source:
* `invalidRange tok` ↞ `Invalid line range '{tok}': Invalid range: {tok} (start > end)`
* `invalidRangeFormat tok bad` ↞ `Invalid line range '{tok}': invalid literal for int(): {bad}`
* `invalidLineNumber tok` ↞ `Invalid line number: {tok}` -/
inductive ParseErr where
  | invalidRange (tok : List Char)
  | invalidRangeFormat (tok bad : List Char)
  | invalidLineNumber (tok : List Char)
deriving DecidableEq, Repr

/-- One iteration of the `for part in parts` loop of `parse_line_ranges`
(src/snippet2image.py:43-60), acting on the accumulated set. -/
def tokenStep (acc : Finset Int) (t : List Char) : Except ParseErr (Finset Int) :=
  if '-' ∈ t then
    match pyInt? (pyStrip (splitHyphen1 t).1) with
    | none => .error (.invalidRangeFormat t (splitHyphen1 t).1)
    | some a =>
      match pyInt? (pyStrip (splitHyphen1 t).2) with
      | none => .error (.invalidRangeFormat t (splitHyphen1 t).2)
      | some b =>
        if a > b then .error (.invalidRange t)
        else .ok (acc ∪ Finset.Icc a b)
  else
    match pyInt? (pyStrip t) with
    | some n => .ok (insert n acc)
    | none => .error (.invalidLineNumber t)

/-- The whole token loop, with the early `raise` of the source. -/
def scanTokens (acc : Finset Int) : List (List Char) → Except ParseErr (Finset Int)
  | [] => .ok acc
  | t :: rest =>
    match tokenStep acc t with
    | .error e => .error e
    | .ok acc2 => scanTokens acc2 rest

/-- Embedding of `parse_line_ranges(line_spec)` (src/snippet2image.py:19-62).
`none` models the Python argument `None`; `if not line_spec` is the
empty-or-`None` guard. -/
def parse_line_ranges (ls : Option (List Char)) : Except ParseErr (List Int) :=
  match ls with
  | none => .ok []
  | some s =>
    if s = [] then .ok []
    else (scanTokens ∅ (pySplit s)).map (Finset.sort (· ≤ ·))

/-- Set of integers contributed by one accepted token: a single-number token
contributes that number, a `start-end` token contributes every integer from
`start` to `end` inclusive (mirrors the loop body's successful branches). -/
def tokenValues (t : List Char) : Finset Int :=
  if '-' ∈ t then
    match pyInt? (pyStrip (splitHyphen1 t).1), pyInt? (pyStrip (splitHyphen1 t).2) with
    | some a, some b => Finset.Icc a b
    | _, _ => ∅
  else
    match pyInt? (pyStrip t) with
    | some n => {n}
    | none => ∅

/-- Per-token error classification: the error `tokenStep` raises on this
token, if any (independent of the accumulated set). -/
def tokenCheck (t : List Char) : Option ParseErr :=
  match tokenStep ∅ t with
  | .error e => some e
  | .ok _ => none
/-! ## Parser lemmas -/

/-- The loop body either raises the acc-independent error `tokenCheck t`
or adds exactly `tokenValues t` to the accumulated set. -/
theorem tokenStep_spec (acc : Finset Int) (t : List Char) :
    tokenStep acc t =
      match tokenCheck t with
      | some e => .error e
      | none => .ok (acc ∪ tokenValues t) := by
  unfold tokenCheck tokenStep tokenValues
  by_cases h : '-' ∈ t
  · simp only [if_pos h]
    rcases ha : pyInt? (pyStrip (splitHyphen1 t).1) with _ | a
    · rfl
    · rcases hb : pyInt? (pyStrip (splitHyphen1 t).2) with _ | b
      · rfl
      · by_cases hab : a > b
        · simp [hab]
        · simp [hab]
  · simp only [if_neg h]
    rcases hn : pyInt? (pyStrip t) with _ | n
    · rfl
    · show Except.ok (insert n acc) = Except.ok (acc ∪ {n})
      have huni : insert n acc = acc ∪ {n} := by
        ext x
        simp [or_comm]
      rw [huni]

theorem tokenStep_error_iff (acc : Finset Int) (t : List Char) (e : ParseErr) :
    tokenStep acc t = .error e ↔ tokenCheck t = some e := by
  rw [tokenStep_spec]
  rcases h : tokenCheck t with _ | e' <;> simp

theorem tokenStep_ok_iff (acc : Finset Int) (t : List Char) (F : Finset Int) :
    tokenStep acc t = .ok F ↔ tokenCheck t = none ∧ F = acc ∪ tokenValues t := by
  rw [tokenStep_spec]
  rcases h : tokenCheck t with _ | e' <;> simp [eq_comm]

/-- Successful scans compute exactly the union of the per-token value sets. -/
theorem scanTokens_ok_mem (ts : List (List Char)) :
    ∀ (acc F : Finset Int), scanTokens acc ts = .ok F →
      ∀ x : ℤ, x ∈ F ↔ x ∈ acc ∨ ∃ t ∈ ts, x ∈ tokenValues t := by
  induction ts with
  | nil =>
    intro acc F h x
    simp only [scanTokens, Except.ok.injEq] at h
    simp [← h]
  | cons t rest ih =>
    intro acc F h x
    rw [scanTokens] at h
    rcases hs : tokenStep acc t with e | acc2
    · rw [hs] at h; cases h
    · rw [hs] at h
      rcases (tokenStep_ok_iff acc t acc2).mp hs with ⟨-, hacc2⟩
      have := ih acc2 F h x
      rw [this, hacc2]
      simp only [Finset.mem_union, List.mem_cons]
      constructor
      · rintro ((hx | hx) | ⟨u, hu, hx⟩)
        · exact Or.inl hx
        · exact Or.inr ⟨t, Or.inl rfl, hx⟩
        · exact Or.inr ⟨u, Or.inr hu, hx⟩
      · rintro (hx | ⟨u, (rfl | hu), hx⟩)
        · exact Or.inl (Or.inl hx)
        · exact Or.inl (Or.inr hx)
        · exact Or.inr ⟨u, hu, hx⟩

/-- A scan raises `e` exactly when the first token failing `tokenCheck`
fails with `e` (all earlier tokens passing). -/
theorem scanTokens_error_iff (ts : List (List Char)) :
    ∀ (acc : Finset Int) (e : ParseErr), scanTokens acc ts = .error e ↔
      ∃ pre t post, ts = pre ++ t :: post ∧
        (∀ u ∈ pre, tokenCheck u = none) ∧ tokenCheck t = some e := by
  induction ts with
  | nil =>
    intro acc e
    simp only [scanTokens]
    constructor
    · intro h; cases h
    · rintro ⟨pre, t, post, h, -, -⟩
      exact absurd h (by simp)
  | cons t rest ih =>
    intro acc e
    rw [scanTokens]
    rcases hs : tokenStep acc t with e' | acc2
    · have he' : tokenCheck t = some e' := (tokenStep_error_iff acc t e').mp hs
      simp only [Except.error.injEq]
      constructor
      · rintro rfl
        exact ⟨[], t, rest, rfl, by simp, he'⟩
      · rintro ⟨pre, u, post, heq, hpre, hu⟩
        rcases pre with _ | ⟨p0, pre'⟩
        · simp only [List.nil_append, List.cons.injEq] at heq
          rw [← heq.1] at hu
          rw [he'] at hu
          exact Option.some_inj.mp hu
        · simp only [List.cons_append, List.cons.injEq] at heq
          have h0 := hpre p0 (by simp)
          rw [← heq.1] at h0
          rw [he'] at h0
          cases h0
    · have hok := (tokenStep_ok_iff acc t acc2).mp hs
      rw [ih acc2 e]
      constructor
      · rintro ⟨pre, u, post, heq, hpre, hu⟩
        refine ⟨t :: pre, u, post, by simp [heq], ?_, hu⟩
        intro v hv
        rcases List.mem_cons.mp hv with hv | hv
        · exact hv ▸ hok.1
        · exact hpre v hv
      · rintro ⟨pre, u, post, heq, hpre, hu⟩
        rcases pre with _ | ⟨p0, pre'⟩
        · simp only [List.nil_append, List.cons.injEq] at heq
          rw [← heq.1] at hu
          rw [hok.1] at hu
          cases hu
        · simp only [List.cons_append, List.cons.injEq] at heq
          exact ⟨pre', u, post, heq.2, fun v hv => hpre v (by simp [hv]), hu⟩

/-- Characters surviving `pyStrip` come from the original string. -/
theorem mem_pyStrip {c : Char} {s : List Char} (h : c ∈ pyStrip s) : c ∈ s := by
  unfold pyStrip at h
  rw [List.mem_reverse] at h
  have h2 := (List.dropWhile_sublist pyWS).mem h
  rw [List.mem_reverse] at h2
  exact (List.dropWhile_sublist pyWS).mem h2

/-- Python `int` on a hyphen-free string never yields a negative value. -/
theorem pyInt?_nonneg {s : List Char} {n : ℤ} (hs : '-' ∉ s)
    (h : pyInt? s = some n) : 0 ≤ n := by
  unfold pyInt? at h
  simp only at h
  by_cases h1 : (pyStrip s).head? = some '+'
  · rw [if_pos h1] at h
    split at h
    · rw [Option.some_inj] at h
      rw [← h]
      exact Int.ofNat_nonneg _
    · cases h
  · rw [if_neg h1] at h
    by_cases h2 : (pyStrip s).head? = some '-'
    · exfalso
      rcases hps : pyStrip s with _ | ⟨c, r⟩
      · rw [hps] at h2; cases h2
      · rw [hps] at h2
        simp only [List.head?_cons, Option.some_inj] at h2
        exact hs (mem_pyStrip (hps ▸ (h2 ▸ List.mem_cons_self c r)))
    · rw [if_neg h2] at h
      split at h
      · rw [Option.some_inj] at h
        rw [← h]
        exact Int.ofNat_nonneg _
      · cases h

deriving instance DecidableEq for Except

/-- Unfolding equation for `parse_line_ranges` on a present string. -/
theorem parse_some (s : List Char) :
    parse_line_ranges (some s) =
      if s = [] then .ok []
      else (scanTokens ∅ (pySplit s)).map (Finset.sort (· ≤ ·)) := rfl

/-- Successful parses are sorts of the scanned set. -/
theorem parse_ok_finset {s : List Char} {l : List Int} (hs : s ≠ [])
    (h : parse_line_ranges (some s) = .ok l) :
    ∃ F, scanTokens ∅ (pySplit s) = .ok F ∧ l = Finset.sort (· ≤ ·) F := by
  rw [parse_some, if_neg hs] at h
  rcases he : scanTokens ∅ (pySplit s) with e | F
  · rw [he] at h; cases h
  · rw [he] at h
    refine ⟨F, rfl, ?_⟩
    simpa [Except.map] using h.symm

/-- Characterisation of successful parses: a strictly ascending duplicate-free
list, containing exactly the integers some token covers. -/
theorem parse_ok_char {s : List Char} {l : List Int}
    (h : parse_line_ranges (some s) = .ok l) :
    l.Sorted (· < ·) ∧ l.Nodup ∧
      ∀ x : ℤ, x ∈ l ↔ ∃ t ∈ pySplit s, x ∈ tokenValues t := by
  by_cases hs : s = []
  · subst hs
    have hl : l = [] := by
      simpa [parse_line_ranges] using h.symm
    subst hl
    refine ⟨List.sorted_nil, List.nodup_nil, ?_⟩
    intro x
    constructor
    · intro hx; cases hx
    · rintro ⟨t, ht, -⟩
      have : pySplit ([] : List Char) = [] := rfl
      rw [this] at ht
      cases ht
  · rcases parse_ok_finset hs h with ⟨F, hF, rfl⟩
    refine ⟨Finset.sort_sorted_lt F, Finset.sort_nodup _ F, ?_⟩
    intro x
    rw [Finset.mem_sort]
    have := scanTokens_ok_mem (pySplit s) ∅ F hF x
    simpa using this

/-- Evaluation rule used to establish concrete parses: the kernel can
evaluate `scanTokens` but not `Finset.sort` (merge sort is defined by
well-founded recursion), so sortedness of the expected output is checked
instead. -/
theorem parse_eval (s : List Char) (l : List Int) (F : Finset Int) (hs : s ≠ [])
    (hscan : scanTokens ∅ (pySplit s) = .ok F) (hF : F = l.toFinset)
    (hnd : l.Nodup) (hsort : l.Sorted (· ≤ ·)) :
    parse_line_ranges (some s) = .ok l := by
  rw [parse_some, if_neg hs, hscan]
  simp only [Except.map]
  rw [hF, (List.toFinset_sort (· ≤ ·) hnd).mpr hsort]

/-- C1.  For every line-spec string, `parse_line_ranges` returns the
ascending, duplicate-free list of exactly the integers covered by its
whitespace-separated tokens (a single-number token contributing that
number, a `start-end` token contributing every integer from `start` to
`end` inclusive, which is what `tokenValues` computes); an empty or
absent input yields the empty list. -/
theorem sp_C1 :
    parse_line_ranges none = .ok [] ∧
    parse_line_ranges (some []) = .ok [] ∧
    ∀ s l, parse_line_ranges (some s) = .ok l →
      l.Sorted (· < ·) ∧ l.Nodup ∧
        ∀ x : ℤ, x ∈ l ↔ ∃ t ∈ pySplit s, x ∈ tokenValues t := by
  refine ⟨rfl, rfl, ?_⟩
  intro s l h
  exact parse_ok_char h

/-- Witness for C1 at the concrete spec string "8-10 15". -/
theorem sp_C1_witness :
    ([8, 9, 10, 15] : List ℤ).Sorted (· < ·) ∧ ([8, 9, 10, 15] : List ℤ).Nodup ∧
      ∀ x : ℤ, x ∈ ([8, 9, 10, 15] : List ℤ) ↔
        ∃ t ∈ pySplit "8-10 15".data, x ∈ tokenValues t :=
  sp_C1.2.2 "8-10 15".data [8, 9, 10, 15]
    (parse_eval _ _ (insert 15 (∅ ∪ Finset.Icc 8 10))
      (by decide) (by decide) (by decide) (by decide) (by decide))

/-- C3.  `parse_line_ranges` fails exactly when some token is malformed,
with the error of the first malformed token, and the per-token
classification is: a hyphenated token whose two parts parse as integers
with start > end fails as `invalidRange` naming the token (and succeeds
when start ≤ end — never silently swapped); a hyphenated token with a
non-integer part fails as `invalidRangeFormat` naming the token and the
failing part; a non-hyphenated token that is not a valid integer fails as
`invalidLineNumber` naming the token. -/
theorem sp_C3 :
    (∀ s e, parse_line_ranges (some s) = .error e ↔
       ∃ pre t post, pySplit s = pre ++ t :: post ∧
         (∀ u ∈ pre, tokenCheck u = none) ∧ tokenCheck t = some e) ∧
    (∀ t a b, '-' ∈ t →
       pyInt? (pyStrip (splitHyphen1 t).1) = some a →
       pyInt? (pyStrip (splitHyphen1 t).2) = some b →
       (a > b → tokenCheck t = some (.invalidRange t)) ∧
       (a ≤ b → tokenCheck t = none)) ∧
    (∀ t, '-' ∈ t → pyInt? (pyStrip (splitHyphen1 t).1) = none →
       tokenCheck t = some (.invalidRangeFormat t (splitHyphen1 t).1)) ∧
    (∀ t a, '-' ∈ t → pyInt? (pyStrip (splitHyphen1 t).1) = some a →
       pyInt? (pyStrip (splitHyphen1 t).2) = none →
       tokenCheck t = some (.invalidRangeFormat t (splitHyphen1 t).2)) ∧
    (∀ t, '-' ∉ t →
       (pyInt? (pyStrip t) = none → tokenCheck t = some (.invalidLineNumber t)) ∧
       ∀ n, pyInt? (pyStrip t) = some n → tokenCheck t = none) := by
  refine ⟨?_, ?_, ?_, ?_, ?_⟩
  · intro s e
    by_cases hs : s = []
    · subst hs
      constructor
      · intro h; cases h
      · rintro ⟨pre, t, post, ht, -, -⟩
        have : pySplit ([] : List Char) = [] := rfl
        rw [this] at ht
        exact absurd ht (by simp)
    · rw [parse_some, if_neg hs]
      rcases he : scanTokens ∅ (pySplit s) with e' | F
      · rw [← scanTokens_error_iff (pySplit s) ∅ e]
        rw [he]
        simp [Except.map]
      · rw [← scanTokens_error_iff (pySplit s) ∅ e]
        rw [he]
        simp [Except.map]
  · intro t a b ht ha hb
    unfold tokenCheck tokenStep
    rw [if_pos ht, ha, hb]
    constructor
    · intro hab
      simp [hab]
    · intro hab
      simp [not_lt_of_ge hab]
  · intro t ht ha
    unfold tokenCheck tokenStep
    rw [if_pos ht, ha]
  · intro t a ht ha hb
    unfold tokenCheck tokenStep
    rw [if_pos ht, ha, hb]
  · intro t ht
    constructor
    · intro hn
      unfold tokenCheck tokenStep
      rw [if_neg ht, hn]
    · intro n hn
      unfold tokenCheck tokenStep
      rw [if_neg ht, hn]

/-- Witness for C3: the range token "10-8" is classified `invalidRange`. -/
theorem sp_C3_witness :
    tokenCheck "10-8".data = some (.invalidRange "10-8".data) :=
  (sp_C3.2.1 "10-8".data 10 8 (by decide) (by decide) (by decide)).1 (by decide)

/-- Counterexample to C5: the token "0" is accepted and parses to `[0]`,
which contains the non-positive integer 0. -/
theorem sp_C5_cex :
    parse_line_ranges (some "0".data) = .ok [0] ∧
      (0 : ℤ) ∈ ([0] : List ℤ) ∧ ¬(0 < (0 : ℤ)) := by
  refine ⟨?_, by decide, by decide⟩
  exact parse_eval _ _ (insert 0 ∅) (by decide) (by decide) (by decide)
    (by decide) (by decide)

/-- C5 (amended).  Every integer in a list returned by `parse_line_ranges`
is nonnegative (not: positive — `0` and `0-2` are accepted and produce 0,
as the counterexample shows; negative values are impossible because a
leading hyphen is consumed by the range split). -/
theorem sp_C5_amended :
    ∀ s l, parse_line_ranges (some s) = .ok l → ∀ x ∈ l, 0 ≤ x := by
  intro s l h x hx
  rcases (parse_ok_char h).2.2 x |>.mp hx with ⟨t, -, hxt⟩
  unfold tokenValues at hxt
  by_cases hht : '-' ∈ t
  · rw [if_pos hht] at hxt
    rcases ha : pyInt? (pyStrip (splitHyphen1 t).1) with _ | a
    · rw [ha] at hxt; cases hxt
    · rcases hb : pyInt? (pyStrip (splitHyphen1 t).2) with _ | b
      · rw [ha, hb] at hxt; cases hxt
      · rw [ha, hb] at hxt
        rw [Finset.mem_Icc] at hxt
        have hstart : '-' ∉ pyStrip (splitHyphen1 t).1 := by
          intro hmem
          have := mem_pyStrip hmem
          unfold splitHyphen1 at this
          exact absurd (List.mem_takeWhile_imp this) (by simp)
        exact le_trans (pyInt?_nonneg hstart ha) hxt.1
  · rw [if_neg hht] at hxt
    rcases hn : pyInt? (pyStrip t) with _ | n
    · rw [hn] at hxt; cases hxt
    · rw [hn] at hxt
      rw [Finset.mem_singleton] at hxt
      subst hxt
      exact pyInt?_nonneg (fun hc => hht (mem_pyStrip hc)) hn

/-- Witness for the amended C5 on the spec "0-2". -/
theorem sp_C5_amended_witness :
    parse_line_ranges (some "0-2".data) = .ok [0, 1, 2] ∧
      ∀ x ∈ ([0, 1, 2] : List ℤ), 0 ≤ x :=
  ⟨parse_eval _ _ (∅ ∪ Finset.Icc 0 2) (by decide) (by decide) (by decide)
      (by decide) (by decide),
    sp_C5_amended "0-2".data [0, 1, 2]
      (parse_eval _ _ (∅ ∪ Finset.Icc 0 2) (by decide) (by decide) (by decide)
        (by decide) (by decide))⟩

/-- C9.  `parse_line_ranges` is a pure function of its input (it is a Lean
function, determinism is intrinsic), and distinct specifications covering
the same integers parse to the same list; in particular
`parse("5 5 3-4") = parse("3-5") = [3, 4, 5]`. -/
theorem sp_C9 :
    (∀ s₁ s₂ l₁ l₂, parse_line_ranges (some s₁) = .ok l₁ →
       parse_line_ranges (some s₂) = .ok l₂ →
       (∀ x : ℤ, (∃ t ∈ pySplit s₁, x ∈ tokenValues t) ↔
         ∃ t ∈ pySplit s₂, x ∈ tokenValues t) →
       l₁ = l₂) ∧
    parse_line_ranges (some "5 5 3-4".data) = .ok [3, 4, 5] ∧
    parse_line_ranges (some "3-5".data) = .ok [3, 4, 5] := by
  refine ⟨?_, ?_, ?_⟩
  · intro s₁ s₂ l₁ l₂ h₁ h₂ hiff
    rcases parse_ok_char h₁ with ⟨hs₁, hd₁, hm₁⟩
    rcases parse_ok_char h₂ with ⟨hs₂, hd₂, hm₂⟩
    have hmm : ∀ x : ℤ, x ∈ l₁ ↔ x ∈ l₂ := fun x =>
      (hm₁ x).trans ((hiff x).trans (hm₂ x).symm)
    haveI : IsAntisymm ℤ (· < ·) := ⟨fun a b hab hba => absurd hab (lt_asymm hba)⟩
    exact List.eq_of_perm_of_sorted
      ((List.perm_ext_iff_of_nodup hd₁ hd₂).mpr hmm) hs₁ hs₂
  · exact parse_eval _ _ (insert 5 (insert 5 ∅) ∪ Finset.Icc 3 4)
      (by decide) (by decide) (by decide) (by decide) (by decide)
  · exact parse_eval _ _ (∅ ∪ Finset.Icc 3 5)
      (by decide) (by decide) (by decide) (by decide) (by decide)

/-- Witness for C9's extensional-equality component, applied to the two
concrete specifications "3-5" and "5 5 3-4". -/
theorem sp_C9_witness : ([3, 4, 5] : List ℤ) = [3, 4, 5] := by
  refine sp_C9.1 "3-5".data "5 5 3-4".data [3, 4, 5] [3, 4, 5] sp_C9.2.2 sp_C9.2.1 ?_
  intro x
  have h1 : pySplit "3-5".data = [['3', '-', '5']] := by decide
  have h2 : pySplit "5 5 3-4".data = [['5'], ['5'], ['3', '-', '4']] := by decide
  have h3 : tokenValues ['3', '-', '5'] = Finset.Icc 3 5 := by decide
  have h4 : tokenValues ['5'] = {5} := by decide
  have h5 : tokenValues ['3', '-', '4'] = Finset.Icc 3 4 := by decide
  simp only [h1, h2, h3, h4, h5, List.mem_cons, List.mem_singleton,
    List.not_mem_nil, or_false, exists_eq_left, Finset.mem_Icc,
    Finset.mem_singleton]
  constructor
  · rintro ⟨h3x, hx5⟩
    by_cases h5x : x = 5
    · exact ⟨['5'], Or.inl rfl, by rw [h4]; simp [h5x]⟩
    · refine ⟨['3', '-', '4'], Or.inr (Or.inr rfl), ?_⟩
      rw [h5, Finset.mem_Icc]
      omega
  · rintro ⟨t, ht, hxt⟩
    rcases ht with rfl | rfl | rfl
    · rw [h4, Finset.mem_singleton] at hxt
      omega
    · rw [h4, Finset.mem_singleton] at hxt
      omega
    · rw [h5, Finset.mem_Icc] at hxt
      omega

/-! ## A backtracking regular-expression semantics for the `re` patterns

The source uses five `re` patterns (three in `add_svg_highlights`, two in
the HTML transparency pass of `code_to_image`).  `RE` is an abstract
syntax covering exactly the constructs they use; `reM r s` lists the
candidate matches of `r` at the start of `s` (consumed length plus
captured groups) in Python's backtracking priority order: alternation is
left-first, a greedy quantifier tries more repetitions first, a lazy one
fewer; `matchAt` takes the first candidate, which is the match Python's
engine returns.  Repetitions are only continued when an iteration
consumed input, Python's empty-repeat rule (all repetition bodies below
consume at least one character anyway). -/
inductive RE where
  | eps
  | lit (l : List Char)
  | cls (pos : Bool) (cs : List Char)
  | seq (a b : RE)
  | alt (a b : RE)
  | star (greedy : Bool) (a : RE)
  | group (n : Nat) (a : RE)
deriving DecidableEq, Repr

/-- Structural size of a pattern, used to compute the matcher's fuel. -/
def RE.size : RE → Nat
  | .eps => 1
  | .lit _ => 1
  | .cls _ _ => 1
  | .seq a b => a.size + b.size + 1
  | .alt a b => a.size + b.size + 1
  | .star _ a => a.size + 1
  | .group _ a => a.size + 1

/-- Fuelled version of the matcher.  Every recursive call strictly
decreases the product `(s.length + 1) * (r.size + 1)` (repetitions only
continue when the iteration consumed input, Python's empty-repeat rule),
so with fuel at least that product the fuel-exhausted branch is
unreachable (`reMF_stable`); fuel instead of well-founded recursion keeps
the definition computable by the kernel. -/
def reMF : Nat → RE → List Char → List (Nat × List (Nat × List Char))
  | 0, _, _ => []
  | f + 1, r, s =>
    match r with
    | .eps => [(0, [])]
    | .lit l => if l <+: s then [(l.length, [])] else []
    | .cls pos cs =>
      match s with
      | [] => []
      | c :: _ => if (c ∈ cs) = (pos = true) then [(1, [])] else []
    | .seq a b =>
      (reMF f a s).flatMap fun m1 =>
        (reMF f b (s.drop m1.1)).map fun m2 => (m1.1 + m2.1, m1.2 ++ m2.2)
    | .alt a b => reMF f a s ++ reMF f b s
    | .group n a => (reMF f a s).map fun m => (m.1, m.2 ++ [(n, s.take m.1)])
    | .star g a =>
      let more := (reMF f a s).flatMap fun m1 =>
        if 0 < m1.1 ∧ m1.1 ≤ s.length then
          (reMF f (.star g a) (s.drop m1.1)).map fun m2 => (m1.1 + m2.1, m1.2 ++ m2.2)
        else []
      if g then more ++ [(0, [])] else (0, []) :: more

/-- Candidate matches of `r` at the start of `s`, in backtracking priority
order: pairs of consumed length and captured groups. -/
def reM (r : RE) (s : List Char) : List (Nat × List (Nat × List Char)) :=
  reMF ((s.length + 1) * (r.size + 1)) r s

theorem reMF_succ_eps (f : Nat) (s : List Char) : reMF (f + 1) .eps s = [(0, [])] := rfl

theorem reMF_succ_lit (f : Nat) (l s : List Char) :
    reMF (f + 1) (.lit l) s = if l <+: s then [(l.length, [])] else [] := rfl

theorem reMF_succ_cls (f : Nat) (pos : Bool) (cs s : List Char) :
    reMF (f + 1) (.cls pos cs) s =
      match s with
      | [] => []
      | c :: _ => if (c ∈ cs) = (pos = true) then [(1, [])] else [] := rfl

theorem reMF_succ_seq (f : Nat) (a b : RE) (s : List Char) :
    reMF (f + 1) (.seq a b) s = (reMF f a s).flatMap fun m1 =>
      (reMF f b (s.drop m1.1)).map fun m2 => (m1.1 + m2.1, m1.2 ++ m2.2) := rfl

theorem reMF_succ_alt (f : Nat) (a b : RE) (s : List Char) :
    reMF (f + 1) (.alt a b) s = reMF f a s ++ reMF f b s := rfl

theorem reMF_succ_group (f n : Nat) (a : RE) (s : List Char) :
    reMF (f + 1) (.group n a) s =
      (reMF f a s).map fun m => (m.1, m.2 ++ [(n, s.take m.1)]) := rfl

theorem reMF_succ_star (f : Nat) (g : Bool) (a : RE) (s : List Char) :
    reMF (f + 1) (.star g a) s =
      (let more := (reMF f a s).flatMap fun m1 =>
        if 0 < m1.1 ∧ m1.1 ≤ s.length then
          (reMF f (.star g a) (s.drop m1.1)).map fun m2 => (m1.1 + m2.1, m1.2 ++ m2.2)
        else []
      if g then more ++ [(0, [])] else (0, []) :: more) := rfl

theorem measure_pos (n m : Nat) : 1 ≤ (n + 1) * (m + 1) :=
  Nat.mul_pos (Nat.succ_pos n) (Nat.succ_pos m)

theorem measure_lt {s1 r1 s2 r2 : Nat} (hs : s1 ≤ s2) (hr : r1 ≤ r2)
    (h : s1 < s2 ∨ r1 < r2) : (s1 + 1) * (r1 + 1) < (s2 + 1) * (r2 + 1) := by
  rcases h with h | h
  · calc (s1 + 1) * (r1 + 1) ≤ (s1 + 1) * (r2 + 1) :=
          Nat.mul_le_mul_left _ (by omega)
      _ < (s2 + 1) * (r2 + 1) :=
          (Nat.mul_lt_mul_right (Nat.succ_pos (r2 + 0))).mpr (by omega)
  · calc (s1 + 1) * (r1 + 1) ≤ (s2 + 1) * (r1 + 1) :=
          Nat.mul_le_mul_right _ (by omega)
      _ < (s2 + 1) * (r2 + 1) :=
          (Nat.mul_lt_mul_left (Nat.succ_pos (s2 + 0))).mpr (by omega)

/-- Above the canonical fuel, the matcher's value does not depend on the
fuel: the fuel-exhausted branch is unreachable. -/
theorem reMF_stable : ∀ f g r s, (s.length + 1) * (r.size + 1) ≤ f →
    (s.length + 1) * (r.size + 1) ≤ g → reMF f r s = reMF g r s := by
  intro f
  induction f using Nat.strong_induction_on with
  | _ f ih =>
    intro g r s hf hg
    have hpos := measure_pos s.length r.size
    rcases f with _ | f'
    · omega
    rcases g with _ | g'
    · omega
    rcases r with _ | ⟨l⟩ | ⟨pos, cs⟩ | ⟨a, b⟩ | ⟨a, b⟩ | ⟨gr, a⟩ | ⟨n, a⟩
    · rfl
    · rfl
    · rfl
    · -- seq
      show (reMF f' a s).flatMap _ = (reMF g' a s).flatMap _
      have hlt_a : (s.length + 1) * (a.size + 1) < (s.length + 1) * ((RE.seq a b).size + 1) :=
        measure_lt (le_refl _) (by simp [RE.size]; omega) (Or.inr (by simp [RE.size]; omega))
      rw [ih f' (by omega) g' a s (by omega) (by omega)]
      congr 1
      funext m1
      have hlt_b : ((s.drop m1.1).length + 1) * (b.size + 1) <
          (s.length + 1) * ((RE.seq a b).size + 1) :=
        measure_lt (by simp) (by simp [RE.size]; omega) (Or.inr (by simp [RE.size]; omega))
      rw [ih f' (by omega) g' b (s.drop m1.1) (by omega) (by omega)]
    · -- alt
      show reMF f' a s ++ reMF f' b s = reMF g' a s ++ reMF g' b s
      have hlt_a : (s.length + 1) * (a.size + 1) < (s.length + 1) * ((RE.alt a b).size + 1) :=
        measure_lt (le_refl _) (by simp [RE.size]; omega) (Or.inr (by simp [RE.size]; omega))
      have hlt_b : (s.length + 1) * (b.size + 1) < (s.length + 1) * ((RE.alt a b).size + 1) :=
        measure_lt (le_refl _) (by simp [RE.size]; omega) (Or.inr (by simp [RE.size]; omega))
      rw [ih f' (by omega) g' a s (by omega) (by omega),
        ih f' (by omega) g' b s (by omega) (by omega)]
    · -- star
      show (let more := (reMF f' a s).flatMap _; if gr then more ++ [(0, [])] else (0, []) :: more)
        = (let more := (reMF g' a s).flatMap _; if gr then more ++ [(0, [])] else (0, []) :: more)
      have hlt_a : (s.length + 1) * (a.size + 1) < (s.length + 1) * ((RE.star gr a).size + 1) :=
        measure_lt (le_refl _) (by simp [RE.size]) (Or.inr (by simp [RE.size]))
      have hbody : ((reMF f' a s).flatMap fun m1 =>
          if 0 < m1.1 ∧ m1.1 ≤ s.length then
            (reMF f' (.star gr a) (s.drop m1.1)).map fun m2 => (m1.1 + m2.1, m1.2 ++ m2.2)
          else []) = ((reMF g' a s).flatMap fun m1 =>
          if 0 < m1.1 ∧ m1.1 ≤ s.length then
            (reMF g' (.star gr a) (s.drop m1.1)).map fun m2 => (m1.1 + m2.1, m1.2 ++ m2.2)
          else []) := by
        rw [ih f' (by omega) g' a s (by omega) (by omega)]
        congr 1
        funext m1
        by_cases hc : 0 < m1.1 ∧ m1.1 ≤ s.length
        · rw [if_pos hc, if_pos hc]
          have hlt_rec : ((s.drop m1.1).length + 1) * ((RE.star gr a).size + 1) <
              (s.length + 1) * ((RE.star gr a).size + 1) :=
            measure_lt (by rw [List.length_drop]; omega) (le_refl _)
              (Or.inl (by rw [List.length_drop]; omega))
          rw [ih f' (by omega) g' (.star gr a) (s.drop m1.1) (by omega) (by omega)]
        · rw [if_neg hc, if_neg hc]
      simp only [hbody]
    · -- group
      show (reMF f' a s).map _ = (reMF g' a s).map _
      have hlt_a : (s.length + 1) * (a.size + 1) < (s.length + 1) * ((RE.group n a).size + 1) :=
        measure_lt (le_refl _) (by simp [RE.size]) (Or.inr (by simp [RE.size]))
      rw [ih f' (by omega) g' a s (by omega) (by omega)]

/-- Any fuel at least the canonical one computes `reM`. -/
theorem reMF_eq_reM {f : Nat} (r : RE) (s : List Char)
    (h : (s.length + 1) * (r.size + 1) ≤ f) : reMF f r s = reM r s :=
  reMF_stable f _ r s h (le_refl _)

theorem reM_eps (s : List Char) : reM .eps s = [(0, [])] := by
  have h := measure_pos s.length RE.eps.size
  unfold reM
  rcases hM : (s.length + 1) * (RE.eps.size + 1) with _ | k
  · omega
  · rfl

theorem reM_lit (l : List Char) (s : List Char) :
    reM (.lit l) s = if l <+: s then [(l.length, [])] else [] := by
  have h := measure_pos s.length (RE.lit l).size
  unfold reM
  rcases hM : (s.length + 1) * ((RE.lit l).size + 1) with _ | k
  · omega
  · rfl

theorem reM_cls (pos : Bool) (cs : List Char) (s : List Char) :
    reM (.cls pos cs) s =
      match s with
      | [] => []
      | c :: _ => if (c ∈ cs) = (pos = true) then [(1, [])] else [] := by
  have h := measure_pos s.length (RE.cls pos cs).size
  unfold reM
  rcases hM : (s.length + 1) * ((RE.cls pos cs).size + 1) with _ | k
  · omega
  · rfl

theorem reM_seq (a b : RE) (s : List Char) :
    reM (.seq a b) s = (reM a s).flatMap fun m1 =>
      (reM b (s.drop m1.1)).map fun m2 => (m1.1 + m2.1, m1.2 ++ m2.2) := by
  have h := measure_pos s.length (RE.seq a b).size
  conv_lhs => rw [reM]
  rcases hM : (s.length + 1) * ((RE.seq a b).size + 1) with _ | k
  · omega
  · show (reMF k a s).flatMap _ = _
    have hk : (s.length + 1) * ((RE.seq a b).size + 1) = k + 1 := hM
    have hlt_a : (s.length + 1) * (a.size + 1) < (s.length + 1) * ((RE.seq a b).size + 1) :=
      measure_lt (le_refl _) (by simp [RE.size]; omega) (Or.inr (by simp [RE.size]; omega))
    rw [reMF_eq_reM a s (by omega)]
    congr 1
    funext m1
    have hlt_b : ((s.drop m1.1).length + 1) * (b.size + 1) <
        (s.length + 1) * ((RE.seq a b).size + 1) :=
      measure_lt (by simp) (by simp [RE.size]; omega) (Or.inr (by simp [RE.size]; omega))
    rw [reMF_eq_reM b (s.drop m1.1) (by omega)]

theorem reM_alt (a b : RE) (s : List Char) :
    reM (.alt a b) s = reM a s ++ reM b s := by
  have h := measure_pos s.length (RE.alt a b).size
  conv_lhs => rw [reM]
  rcases hM : (s.length + 1) * ((RE.alt a b).size + 1) with _ | k
  · omega
  · show reMF k a s ++ reMF k b s = _
    have hk : (s.length + 1) * ((RE.alt a b).size + 1) = k + 1 := hM
    have hlt_a : (s.length + 1) * (a.size + 1) < (s.length + 1) * ((RE.alt a b).size + 1) :=
      measure_lt (le_refl _) (by simp [RE.size]; omega) (Or.inr (by simp [RE.size]; omega))
    have hlt_b : (s.length + 1) * (b.size + 1) < (s.length + 1) * ((RE.alt a b).size + 1) :=
      measure_lt (le_refl _) (by simp [RE.size]; omega) (Or.inr (by simp [RE.size]; omega))
    rw [reMF_eq_reM a s (by omega), reMF_eq_reM b s (by omega)]

theorem reM_group (n : Nat) (a : RE) (s : List Char) :
    reM (.group n a) s = (reM a s).map fun m => (m.1, m.2 ++ [(n, s.take m.1)]) := by
  have h := measure_pos s.length (RE.group n a).size
  conv_lhs => rw [reM]
  rcases hM : (s.length + 1) * ((RE.group n a).size + 1) with _ | k
  · omega
  · show (reMF k a s).map _ = _
    have hk : (s.length + 1) * ((RE.group n a).size + 1) = k + 1 := hM
    have hlt_a : (s.length + 1) * (a.size + 1) < (s.length + 1) * ((RE.group n a).size + 1) :=
      measure_lt (le_refl _) (by simp [RE.size]) (Or.inr (by simp [RE.size]))
    rw [reMF_eq_reM a s (by omega)]

theorem reM_star (g : Bool) (a : RE) (s : List Char) :
    reM (.star g a) s =
      (let more := (reM a s).flatMap fun m1 =>
        if 0 < m1.1 ∧ m1.1 ≤ s.length then
          (reM (.star g a) (s.drop m1.1)).map fun m2 => (m1.1 + m2.1, m1.2 ++ m2.2)
        else []
      if g then more ++ [(0, [])] else (0, []) :: more) := by
  have h := measure_pos s.length (RE.star g a).size
  conv_lhs => rw [reM]
  rcases hM : (s.length + 1) * ((RE.star g a).size + 1) with _ | k
  · omega
  · have hk : (s.length + 1) * ((RE.star g a).size + 1) = k + 1 := hM
    show (let more := (reMF k a s).flatMap _; if g then more ++ [(0, [])] else (0, []) :: more) = _
    have hlt_a : (s.length + 1) * (a.size + 1) < (s.length + 1) * ((RE.star g a).size + 1) :=
      measure_lt (le_refl _) (by simp [RE.size]) (Or.inr (by simp [RE.size]))
    have hbody : ((reMF k a s).flatMap fun m1 =>
        if 0 < m1.1 ∧ m1.1 ≤ s.length then
          (reMF k (.star g a) (s.drop m1.1)).map fun m2 => (m1.1 + m2.1, m1.2 ++ m2.2)
        else []) = ((reM a s).flatMap fun m1 =>
        if 0 < m1.1 ∧ m1.1 ≤ s.length then
          (reM (.star g a) (s.drop m1.1)).map fun m2 => (m1.1 + m2.1, m1.2 ++ m2.2)
        else []) := by
      rw [reMF_eq_reM a s (by omega)]
      congr 1
      funext m1
      by_cases hc : 0 < m1.1 ∧ m1.1 ≤ s.length
      · rw [if_pos hc, if_pos hc]
        have hlt_rec : ((s.drop m1.1).length + 1) * ((RE.star g a).size + 1) <
            (s.length + 1) * ((RE.star g a).size + 1) :=
          measure_lt (by rw [List.length_drop]; omega) (le_refl _)
              (Or.inl (by rw [List.length_drop]; omega))
        rw [reMF_eq_reM (.star g a) (s.drop m1.1) (by omega)]
      · rw [if_neg hc, if_neg hc]
    simp only [hbody]

/-- Every candidate match consumes at most the available input (fuelled
form). -/
theorem reMF_le_length : ∀ (f : Nat) (r : RE) (s : List Char),
    ∀ m ∈ reMF f r s, m.1 ≤ s.length := by
  intro f
  induction f with
  | zero => intro r s m hm; cases hm
  | succ f ih =>
    intro r s m hm
    rcases r with _ | ⟨l⟩ | ⟨pos, cs⟩ | ⟨a, b⟩ | ⟨a, b⟩ | ⟨g, a⟩ | ⟨n, a⟩
    · rcases List.mem_singleton.mp hm with rfl
      simp
    · rw [reMF_succ_lit] at hm
      split at hm
      · rcases List.mem_singleton.mp hm with rfl
        simpa using List.IsPrefix.length_le (by assumption)
      · cases hm
    · rw [reMF_succ_cls] at hm
      rcases s with _ | ⟨c, rest⟩
      · cases hm
      · simp only at hm
        split at hm
        · rcases List.mem_singleton.mp hm with rfl
          simp
        · cases hm
    · rw [reMF_succ_seq] at hm
      rcases List.mem_flatMap.mp hm with ⟨m1, hm1, hm2⟩
      rcases List.mem_map.mp hm2 with ⟨m2, hm2h, rfl⟩
      have h1 := ih a s m1 hm1
      have h2 := ih b (s.drop m1.1) m2 hm2h
      rw [List.length_drop] at h2
      simp only
      omega
    · rw [reMF_succ_alt] at hm
      rcases List.mem_append.mp hm with hmm | hmm
      · exact ih a s m hmm
      · exact ih b s m hmm
    · rw [reMF_succ_star] at hm
      simp only at hm
      have hmore : ∀ m' ∈ (reMF f a s).flatMap fun m1 =>
          if 0 < m1.1 ∧ m1.1 ≤ s.length then
            (reMF f (.star g a) (s.drop m1.1)).map fun m2 => (m1.1 + m2.1, m1.2 ++ m2.2)
          else [], m'.1 ≤ s.length := by
        intro m' hm'
        rcases List.mem_flatMap.mp hm' with ⟨m1, hm1, hm2⟩
        split at hm2
        · rcases List.mem_map.mp hm2 with ⟨m2, hm2h, rfl⟩
          have h2 := ih (.star g a) (s.drop m1.1) m2 hm2h
          rw [List.length_drop] at h2
          simp only
          omega
        · cases hm2
      rcases g with _ | _
      · simp only [Bool.false_eq_true, if_false] at hm
        rcases List.mem_cons.mp hm with rfl | hmm
        · simp
        · exact hmore m hmm
      · simp only [if_true] at hm
        rcases List.mem_append.mp hm with hmm | hmm
        · exact hmore m hmm
        · rcases List.mem_singleton.mp hmm with rfl
          simp
    · rw [reMF_succ_group] at hm
      rcases List.mem_map.mp hm with ⟨m1, hm1, rfl⟩
      exact ih a s m1 hm1

/-- Every candidate match consumes at most the available input. -/
theorem reM_le_length (r : RE) (s : List Char) :
    ∀ m ∈ reM r s, m.1 ≤ s.length :=
  reMF_le_length _ r s

/-- One-or-more repetition, greedy: `x+` is `x` then greedy `x*`. -/
def RE.plus (r : RE) : RE := .seq r (.star true r)

/-- Optional, greedy: `x?` tries `x` first, like Python's `?`. -/
def RE.opt (r : RE) : RE := .alt r .eps

/-- Sequencing of a pattern list (the trailing `eps` is neutral). -/
def reSeq (rs : List RE) : RE := rs.foldr .seq .eps

/-- The first candidate of the backtracking enumeration: the match Python's
engine reports for this pattern at this exact position. -/
def matchAt (r : RE) (s : List Char) : Option (Nat × List (Nat × List Char)) :=
  (reM r s).head?

/-- A match as reported by the scan drivers: absolute offsets into the
subject string plus the captured groups. -/
structure RMatch where
  start : Nat
  stop : Nat
  caps : List (Nat × List Char)
deriving DecidableEq, Repr

/-- Fuelled scan loop of `re.finditer`: try the pattern at every position
from `i` on; on a match, continue at its end (one further if it was empty
— the patterns below never produce empty matches).  Each step decreases
`s.length + 1 - i`, so fuel `s.length + 1` never runs out from position
0 (`fidF_stable`). -/
def fidF (r : RE) (s : List Char) : Nat → Nat → List RMatch
  | 0, _ => []
  | f + 1, i =>
    if i ≤ s.length then
      match matchAt r (s.drop i) with
      | some m =>
        if m.1 = 0 then
          ⟨i, i, m.2⟩ :: (if i < s.length then fidF r s f (i + 1) else [])
        else ⟨i, i + m.1, m.2⟩ :: fidF r s f (i + m.1)
      | none => if i < s.length then fidF r s f (i + 1) else []
    else []

/-- Python `re.finditer(pattern, s)`: all non-overlapping matches, leftmost
first. -/
def finditer (r : RE) (s : List Char) : List RMatch := fidF r s (s.length + 1) 0

/-- Python `re.search(pattern, s)`: the leftmost match, if any. -/
def reSearch (r : RE) (s : List Char) : Option RMatch := (finditer r s).head?

/-- Python `match.group(1)`.  Each pattern below uses group 1 at most once
and never under a quantifier, so the first recorded capture is the one
Python reports. -/
def cap1 (m : RMatch) : Option (List Char) :=
  (m.caps.find? fun p => p.1 = 1).map (fun p => p.2)

/-! ## The five `re` patterns of the source -/

/-- Python's `\s`, restricted to ASCII. -/
def wsChars : List Char := [' ', '\t', '\n', '\x0d', '\x0b', '\x0c']

/-- Python's `\d`, restricted to ASCII. -/
def digitChars : List Char := ['0', '1', '2', '3', '4', '5', '6', '7', '8', '9']

/-- The class `[0-9a-fA-F]`. -/
def hexChars : List Char :=
  digitChars ++ ['a', 'b', 'c', 'd', 'e', 'f', 'A', 'B', 'C', 'D', 'E', 'F']

/-- `<text[^>]+y="([^"]+)"[^>]+text-anchor="end"[^>]*>`
(src/snippet2image.py:87): the line-number label elements of the SVG. -/
def textPattern : RE := reSeq
  [.lit "<text".data, .plus (.cls false ['>']), .lit "y=\"".data,
   .group 1 (.plus (.cls false ['"'])), .lit "\"".data,
   .plus (.cls false ['>']), .lit "text-anchor=\"end\"".data,
   .star true (.cls false ['>']), .lit ">".data]

/-- `font-size:\s*(\d+(?:\.\d+)?)` (src/snippet2image.py:94). -/
def fontPattern : RE := reSeq
  [.lit "font-size:".data, .star true (.cls true wsChars),
   .group 1 (.seq (.plus (.cls true digitChars))
     (.opt (.seq (.lit ".".data) (.plus (.cls true digitChars)))))]

/-- `<svg[^>]+width="(\d+)"` (src/snippet2image.py:101). -/
def widthPattern : RE := reSeq
  [.lit "<svg".data, .plus (.cls false ['>']), .lit "width=\"".data,
   .group 1 (.plus (.cls true digitChars)), .lit "\"".data]

/-- `(<(?:div|table|td)[^>]*style="[^"]*?)background:\s*#[0-9a-fA-F]+`
(src/snippet2image.py:236): container-restricted background declaration. -/
def containerPattern : RE := reSeq
  [.group 1 (reSeq
     [.lit "<".data,
      .alt (.lit "div".data) (.alt (.lit "table".data) (.lit "td".data)),
      .star true (.cls false ['>']), .lit "style=\"".data,
      .star false (.cls false ['"'])]),
   .lit "background:".data, .star true (.cls true wsChars),
   .lit "#".data, .plus (.cls true hexChars)]

/-- `background:\s*#[0-9a-fA-F]+` (src/snippet2image.py:241): any
background hex-colour declaration. -/
def globalPattern : RE := reSeq
  [.lit "background:".data, .star true (.cls true wsChars),
   .lit "#".data, .plus (.cls true hexChars)]

/-! ## Exact rationals with kernel-computable arithmetic

Mathlib's `ℚ` arithmetic does not reduce inside the kernel, so the
embedding computes with gcd-normalised fractions `Dec` and states numeric
properties through the exact-value map `toRat : Dec → ℚ`.  Every float
the source manipulates is a finite decimal, represented exactly. -/

structure Dec where
  num : Int
  den : Nat
deriving DecidableEq, Repr

/-- Normalised fraction `n / d` (callers never pass `d = 0`). -/
def decNorm (n : Int) (d : Nat) : Dec :=
  if d = 0 then ⟨0, 1⟩
  else ⟨n / (Nat.gcd n.natAbs d : Int), d / Nat.gcd n.natAbs d⟩

def Dec.ofInt (n : Int) : Dec := ⟨n, 1⟩

def Dec.neg (a : Dec) : Dec := ⟨-a.num, a.den⟩

def Dec.add (a b : Dec) : Dec :=
  decNorm (a.num * (b.den : Int) + b.num * (a.den : Int)) (a.den * b.den)

def Dec.sub (a b : Dec) : Dec := a.add b.neg

def Dec.mul (a b : Dec) : Dec := decNorm (a.num * b.num) (a.den * b.den)

/-- The exact rational value of a `Dec`. -/
def toRat (a : Dec) : ℚ := (a.num : ℚ) / (a.den : ℚ)

/-! ## Python `float(...)` on strings -/

/-- Python `float(s)` for finite decimal literals: strip whitespace, an
optional sign, integer/fraction digit runs (underscores allowed between
digits) and an optional signed exponent.  The special values
`inf`/`infinity`/`nan` are outside the modelled input space. -/
def pyFloat? (s : List Char) : Option Dec :=
  let t := pyStrip s
  let t1 := if t.head? = some '-' || t.head? = some '+' then t.tail else t
  let mant := t1.takeWhile fun c => ¬(c = 'e' ∨ c = 'E')
  let erest := t1.dropWhile fun c => ¬(c = 'e' ∨ c = 'E')
  let ip := mant.takeWhile fun c => c ≠ '.'
  let hasDot := decide ('.' ∈ mant)
  let fp := if hasDot then (mant.dropWhile fun c => c ≠ '.').tail else []
  let mantOK :=
    if hasDot then
      decide ('.' ∉ fp) && (ip.isEmpty || isUDigits ip) && (fp.isEmpty || isUDigits fp) &&
        !(ip.isEmpty && fp.isEmpty)
    else isUDigits ip
  let fdigits := (fp.filter fun c => c ≠ '_').length
  let mval : Dec := (Dec.ofInt (digitsVal ip : Int)).add
    (decNorm (digitsVal fp : Int) (10 ^ fdigits))
  let sval : Dec := if t.head? = some '-' then mval.neg else mval
  match erest with
  | [] => if mantOK then some sval else none
  | _ :: et =>
    let esgn : Int := if et.head? = some '-' then -1 else 1
    let et1 := if et.head? = some '-' || et.head? = some '+' then et.tail else et
    if mantOK && isUDigits et1 then
      let e : Int := esgn * (digitsVal et1 : Int)
      let efac : Dec := if 0 ≤ e then Dec.ofInt ((10 : Int) ^ e.toNat)
        else decNorm 1 (10 ^ (-e).toNat)
      some (sval.mul efac)
    else none

/-! ## Decimal rendering of the numbers interpolated into the rectangle -/

/-- Digit character of `n < 10`. -/
def digitChar (n : Nat) : Char := Char.ofNat (48 + n)

/-- Fuelled digit writer, most significant digit first. -/
def natReprF : Nat → Nat → List Char
  | 0, _ => []
  | f + 1, n => if n < 10 then [digitChar n] else natReprF f (n / 10) ++ [digitChar (n % 10)]

/-- Decimal digits of a natural number (fuel `n + 1` always suffices since
the recursion divides by 10). -/
def natRepr (n : Nat) : List Char := natReprF (n + 1) n

/-- Decimal rendering of an integer. -/
def intRepr (i : Int) : List Char :=
  if i < 0 then '-' :: natRepr (-i).toNat else natRepr i.toNat

/-- Fuelled helper for `divOutTwo`. -/
def divOutTwoF : Nat → Nat → Nat × Nat
  | 0, n => (0, n)
  | f + 1, n =>
    if n % 2 = 0 ∧ n ≠ 0 then
      let p := divOutTwoF f (n / 2)
      (p.1 + 1, p.2)
    else (0, n)

/-- Largest power of 2 dividing `n`, with the remaining factor (fuel `n`
suffices: halving reaches an odd factor in fewer than `n` steps). -/
def divOutTwo (n : Nat) : Nat × Nat := divOutTwoF n n

/-- Fuelled helper for `divOutFive`. -/
def divOutFiveF : Nat → Nat → Nat × Nat
  | 0, n => (0, n)
  | f + 1, n =>
    if n % 5 = 0 ∧ n ≠ 0 then
      let p := divOutFiveF f (n / 5)
      (p.1 + 1, p.2)
    else (0, n)

/-- Largest power of 5 dividing `n`, with the remaining factor. -/
def divOutFive (n : Nat) : Nat × Nat := divOutFiveF n n

/-- Decimal rendering of a nonnegative rational with 10-smooth denominator
(every value interpolated by the source is such); other denominators,
never produced, render as a fraction.  This idealises Python's
shortest-roundtrip float repr: the digits agree whenever the float is
exact, and no claim depends on the digit text. -/
def decimalOfRatPos (q : Dec) : List Char :=
  let d2 := divOutTwo q.den
  let d5 := divOutFive d2.2
  if d5.2 = 1 then
    let k := max d2.1 d5.1
    let scaled := q.num.toNat * 10 ^ k / q.den
    if k = 0 then natRepr scaled
    else
      let ds := natRepr scaled
      let ds := if ds.length < k + 1 then List.replicate (k + 1 - ds.length) '0' ++ ds else ds
      ds.take (ds.length - k) ++ '.' :: ds.drop (ds.length - k)
  else natRepr q.num.toNat ++ '/' :: natRepr q.den

/-- Decimal rendering of a rational, sign first. -/
def decimalOfRat (q : Dec) : List Char :=
  if q.num < 0 then '-' :: decimalOfRatPos q.neg else decimalOfRatPos q

/-! ## The SVG highlight injector (`add_svg_highlights`, lines 65-127) -/

/-- A raised Python exception of the modelled fragment (the only one
reachable is `float(...)` failing on a `y` attribute). -/
inductive PyErr where
  | valueError
deriving DecidableEq, Repr

/-- Font size extraction (src/snippet2image.py:94-95): first
`font-size:` declaration, default 14.  The captured text always matches
`\d+(\.\d+)?`, which `pyFloat?` accepts, so the inner fallback is
unreachable. -/
def detectFontSize (svg : List Char) : Dec :=
  match reSearch fontPattern svg with
  | some m =>
    match (cap1 m).bind pyFloat? with
    | some q => q
    | none => Dec.ofInt 14
  | none => Dec.ofInt 14

/-- Width extraction (src/snippet2image.py:101-102): width attribute of the
`<svg>` element, default 800.  The captured text always matches `\d+`,
which `pyInt?` accepts, so the inner fallback is unreachable. -/
def detectWidth (svg : List Char) : Int :=
  match reSearch widthPattern svg with
  | some m =>
    match (cap1 m).bind pyInt? with
    | some n => n
    | none => 800
  | none => 800

/-- One highlight rectangle, fields as interpolated into the `<rect>`
f-string (src/snippet2image.py:112-119); `x` and `opacity` are the literal
text `0` and `0.3` of the f-string. -/
structure SvgRect where
  x : Dec
  y : Dec
  width : Int
  height : Dec
  fill : List Char
  opacity : Dec
deriving DecidableEq, Repr

/-- Rectangle for one line: `rect_y = y_pos - font_size * 0.85`, full
detected width, band height `line_height`, requested colour at opacity
0.3. -/
def mkRect (ypos fs lh : Dec) (w : Int) (color : List Char) : SvgRect :=
  { x := Dec.ofInt 0, y := ypos.sub (fs.mul (decNorm 85 100)), width := w,
    height := lh, fill := color, opacity := decNorm 3 10 }

/-- The `<rect .../>` text of the f-string at src/snippet2image.py:115-119. -/
def renderRect (r : SvgRect) : List Char :=
  "<rect x=\"".data ++ decimalOfRat r.x ++ "\" y=\"".data ++ decimalOfRat r.y ++
    "\" width=\"".data ++ intRepr r.width ++ "\" height=\"".data ++
    decimalOfRat r.height ++ "\" fill=\"".data ++ r.fill ++
    "\" fill-opacity=\"".data ++ decimalOfRat r.opacity ++ "\"/>".data

/-- The rectangle-building loop (src/snippet2image.py:105-120): one entry
`(match start, rectangle)` per requested line number within
`[1, number of matches]`, in request order; out-of-range numbers are
skipped.  `float(match.group(1))` failing raises (`.error`); the index
lookup's `none` branch is unreachable, as the preceding bound check keeps
the index in range. -/
def buildRects (ms : List RMatch) (fs lh : Dec) (w : Int) (color : List Char) :
    List Int → Except PyErr (List (Nat × SvgRect))
  | [] => .ok []
  | n :: rest =>
    if 0 < n ∧ n ≤ (ms.length : Int) then
      match ms[(n - 1).toNat]? with
      | some m =>
        match pyFloat? ((cap1 m).getD []) with
        | some ypos =>
          (buildRects ms fs lh w color rest).map
            fun tail => (m.start, mkRect ypos fs lh w color) :: tail
        | none => .error .valueError
      | none => .error .valueError
    else buildRects ms fs lh w color rest

/-- `sorted(rectangles, reverse=True)` (src/snippet2image.py:124).  Python
compares the `(position, text)` tuples; entries with equal positions arise
only from duplicated line numbers and are then entirely identical, so any
stable sort by position alone agrees; insertion sort keeps the definition
kernel-computable. -/
def sortDesc (l : List (Nat × List Char)) : List (Nat × List Char) :=
  l.insertionSort fun a b => b.1 ≤ a.1

/-- `svg_content[:pos] + rect + '\n' + svg_content[pos:]`
(src/snippet2image.py:125). -/
def insertAt (s : List Char) (p : Nat) (r : List Char) : List Char :=
  s.take p ++ r ++ '\n' :: s.drop p

/-- The insertion loop over the descending-sorted rectangle list
(src/snippet2image.py:124-125). -/
def spliceAll (s : List Char) : List (Nat × List Char) → List Char
  | [] => s
  | (p, r) :: rest => spliceAll (insertAt s p r) rest

/-- Embedding of `add_svg_highlights(svg_content, highlight_lines,
highlight_color)` (src/snippet2image.py:65-127). -/
def add_svg_highlights (svg : List Char) (hl : List Int) (color : List Char) :
    Except PyErr (List Char) :=
  if hl = [] then .ok svg
  else
    let ms := finditer textPattern svg
    if ms = [] then .ok svg
    else
      let fs := detectFontSize svg
      let lh := fs.mul (decNorm 12 10)
      let w := detectWidth svg
      (buildRects ms fs lh w color hl).map fun recs =>
        spliceAll svg (sortDesc (recs.map fun e => (e.1, renderRect e.2)))

/-! ## The transparency post-passes of `code_to_image` -/

/-- Fuelled helper for `pyReplace`. -/
def pyRepF (pat repl : List Char) : Nat → List Char → List Char
  | 0, s => s
  | f + 1, s =>
    match s with
    | [] => []
    | c :: rest =>
      if pat ≠ [] ∧ pat <+: (c :: rest) then
        repl ++ pyRepF pat repl f ((c :: rest).drop pat.length)
      else c :: pyRepF pat repl f rest

/-- Python `s.replace(pat, repl)` for a nonempty `pat` (leftmost,
non-overlapping, global).  Fuel `s.length` suffices: each step strictly
shortens the subject (`pyRepF_stable`). -/
def pyReplace (s pat repl : List Char) : List Char := pyRepF pat repl s.length s

/-- `'background: #'`, the needle of the SVG transparency replace
(src/snippet2image.py:193). -/
def bgPat : List Char := "background: #".data

/-- Its replacement `'background: transparent; /* #'`. -/
def bgRepl : List Char := "background: transparent; /* #".data

/-- The SVG branch of `code_to_image` after formatting: highlight
injection (when lines were requested) followed by the transparency
replace (src/snippet2image.py:187-193). -/
def svgPostProcess (content : List Char) (hl : List Int) (color : List Char)
    (transparent : Bool) : Except PyErr (List Char) :=
  match (if hl ≠ [] then add_svg_highlights content hl color else .ok content) with
  | .error e => .error e
  | .ok c => .ok (if transparent then pyReplace c bgPat bgRepl else c)

/-- `re.sub` output assembly: unmatched text is copied, each match is
replaced by `f m`. -/
def subSplice (f : RMatch → List Char) (s : List Char) :
    Nat → List RMatch → List Char
  | i, [] => s.drop i
  | i, m :: rest => (s.drop i).take (m.start - i) ++ f m ++ subSplice f s m.stop rest

/-- Python `re.sub(pattern, repl, s)` with a replacement function (the
source's replacements are a fixed string and `\1` plus a fixed string). -/
def reSub (r : RE) (f : RMatch → List Char) (s : List Char) : List Char :=
  subSplice f s 0 (finditer r s)

/-- Replacement `'background: transparent'` of the global HTML pass
(src/snippet2image.py:241). -/
def replTransparent : RMatch → List Char := fun _ => "background: transparent".data

/-- Replacement `r'\1background: transparent'` of the container-restricted
HTML pass (src/snippet2image.py:237). -/
def replContainer : RMatch → List Char :=
  fun m => (cap1 m).getD [] ++ "background: transparent".data

/-- The transparency block of the HTML branch of `code_to_image`
(src/snippet2image.py:231-241): container-restricted substitution when
lines are highlighted, global substitution otherwise. -/
def htmlTransparency (content : List Char) (hl : List Int) : List Char :=
  if hl ≠ [] then reSub containerPattern replContainer content
  else reSub globalPattern replTransparent content

/-! ## Scan-driver invariants -/

theorem fidF_succ (r : RE) (s : List Char) (f i : Nat) :
    fidF r s (f + 1) i =
      if i ≤ s.length then
        match matchAt r (s.drop i) with
        | some m =>
          if m.1 = 0 then
            ⟨i, i, m.2⟩ :: (if i < s.length then fidF r s f (i + 1) else [])
          else ⟨i, i + m.1, m.2⟩ :: fidF r s f (i + m.1)
        | none => if i < s.length then fidF r s f (i + 1) else []
      else [] := rfl

/-- The scan's fuel `s.length + 1` (from position 0) is exact: each step
advances the position. -/
theorem fidF_stable (r : RE) (s : List Char) : ∀ f g i,
    s.length + 1 - i ≤ f → s.length + 1 - i ≤ g → fidF r s f i = fidF r s g i := by
  intro f
  induction f with
  | zero =>
    intro g i hf hg
    rcases g with _ | g'
    · rfl
    · rw [fidF_succ, if_neg (by omega)]
      rfl
  | succ f ih =>
    intro g i hf hg
    rcases g with _ | g'
    · rw [fidF_succ, if_neg (by omega)]
      rfl
    · rw [fidF_succ, fidF_succ]
      by_cases hle : i ≤ s.length
      · rw [if_pos hle, if_pos hle]
        split
        · rename_i m0 hma
          have hm0 : m0 ∈ reM r (s.drop i) := by
            unfold matchAt at hma
            exact List.mem_of_mem_head? (by rw [hma]; rfl)
          have hbound := reM_le_length r (s.drop i) m0 hm0
          rw [List.length_drop] at hbound
          by_cases hz : m0.1 = 0
          · rw [if_pos hz, if_pos hz]
            by_cases hlt : i < s.length
            · rw [if_pos hlt, if_pos hlt, ih g' (i + 1) (by omega) (by omega)]
            · rw [if_neg hlt, if_neg hlt]
          · rw [if_neg hz, if_neg hz, ih g' (i + m0.1) (by omega) (by omega)]
        · by_cases hlt : i < s.length
          · rw [if_pos hlt, if_pos hlt, ih g' (i + 1) (by omega) (by omega)]
          · rw [if_neg hlt, if_neg hlt]
      · rw [if_neg hle, if_neg hle]

/-- Positions and semantics of the reported matches: each starts at or
after the scan position, fits in the subject, and is exactly what
`matchAt` reports at its start offset. -/
theorem fidF_mem_spec (r : RE) (s : List Char) : ∀ (f i : Nat),
    ∀ m ∈ fidF r s f i,
      i ≤ m.start ∧ m.start ≤ m.stop ∧ m.stop ≤ s.length ∧
        matchAt r (s.drop m.start) = some (m.stop - m.start, m.caps) := by
  intro f
  induction f with
  | zero => intro i m hm; cases hm
  | succ f ih =>
    intro i m hm
    rw [fidF_succ] at hm
    split at hm
    · rename_i hle
      split at hm
      · rename_i m0 hma
        have hm0 : m0 ∈ reM r (s.drop i) := by
          unfold matchAt at hma
          exact List.mem_of_mem_head? (by rw [hma]; rfl)
        have hbound := reM_le_length r (s.drop i) m0 hm0
        rw [List.length_drop] at hbound
        split at hm
        · rename_i hz
          rcases List.mem_cons.mp hm with rfl | hm'
          · refine ⟨le_refl _, le_refl _, hle, ?_⟩
            show matchAt r (s.drop i) = some (i - i, m0.2)
            simp only [Nat.sub_self]
            rw [hma, ← hz]
          · split at hm'
            · have := ih (i + 1) m hm'
              exact ⟨by omega, this.2⟩
            · cases hm'
        · rename_i hz
          rcases List.mem_cons.mp hm with rfl | hm'
          · refine ⟨le_refl _, by show i ≤ i + m0.1; omega,
              by show i + m0.1 ≤ s.length; omega, ?_⟩
            show matchAt r (s.drop i) = some (i + m0.1 - i, m0.2)
            simp only [Nat.add_sub_cancel_left]
            rw [hma]
          · have := ih (i + m0.1) m hm'
            exact ⟨by omega, this.2⟩
      · split at hm
        · have := ih (i + 1) m hm
          exact ⟨by omega, this.2⟩
        · cases hm
    · cases hm

/-- Reported matches are non-overlapping and strictly ordered by start. -/
theorem fidF_pairwise (r : RE) (s : List Char) : ∀ (f i : Nat),
    (fidF r s f i).Pairwise fun a b => a.stop ≤ b.start ∧ a.start < b.start := by
  intro f
  induction f with
  | zero => intro i; exact List.Pairwise.nil
  | succ f ih =>
    intro i
    rw [fidF_succ]
    split
    · rename_i hle
      split
      · rename_i m0 hma
        split
        · rename_i hz
          refine List.Pairwise.cons ?_ ?_
          · intro b hb
            split at hb
            · have := fidF_mem_spec r s f (i + 1) b hb
              exact ⟨by show i ≤ b.start; omega, by show i < b.start; omega⟩
            · cases hb
          · split
            · exact ih (i + 1)
            · exact List.Pairwise.nil
        · rename_i hz
          refine List.Pairwise.cons ?_ (ih (i + m0.1))
          · intro b hb
            have := fidF_mem_spec r s f (i + m0.1) b hb
            refine ⟨by show i + m0.1 ≤ b.start; omega, by show i < b.start; omega⟩
      · split
        · exact ih (i + 1)
        · exact List.Pairwise.nil
    · exact List.Pairwise.nil

/-- `finditer` facts, at the top level. -/
theorem finditer_mem_spec (r : RE) (s : List Char) :
    ∀ m ∈ finditer r s, m.start ≤ m.stop ∧ m.stop ≤ s.length ∧
      matchAt r (s.drop m.start) = some (m.stop - m.start, m.caps) := by
  intro m hm
  have := fidF_mem_spec r s (s.length + 1) 0 m hm
  exact this.2

theorem finditer_pairwise (r : RE) (s : List Char) :
    (finditer r s).Pairwise fun a b => a.stop ≤ b.start ∧ a.start < b.start :=
  fidF_pairwise r s (s.length + 1) 0

/-! ## The insertion loop: decomposition of `spliceAll` -/

theorem le_length_insertAt (s : List Char) (p : Nat) (r : List Char) :
    s.length ≤ (insertAt s p r).length := by
  unfold insertAt
  simp only [List.length_append, List.length_take, List.length_cons, List.length_drop]
  omega

theorem insertAt_append (a b r : List Char) (p : Nat) (hp : p ≤ a.length) :
    insertAt (a ++ b) p r = insertAt a p r ++ b := by
  unfold insertAt
  rw [List.take_append_of_le_length hp, List.drop_append_of_le_length hp]
  simp

theorem spliceAll_append (L : List (Nat × List Char)) : ∀ (a b : List Char),
    (∀ e ∈ L, e.1 ≤ a.length) → spliceAll (a ++ b) L = spliceAll a L ++ b := by
  induction L with
  | nil => intro a b _; rfl
  | cons e rest ih =>
    intro a b hL
    obtain ⟨p, r⟩ := e
    show spliceAll (insertAt (a ++ b) p r) rest = spliceAll (insertAt a p r) rest ++ b
    rw [insertAt_append a b r p (hL (p, r) (List.mem_cons_self _ _))]
    exact ih (insertAt a p r) b fun e he =>
      le_trans (hL e (List.mem_cons_of_mem _ he)) (le_length_insertAt a p r)

theorem spliceAll_decomp (s : List Char) (p : Nat) (r : List Char)
    (rest : List (Nat × List Char)) (hp : p ≤ s.length)
    (hrest : ∀ e ∈ rest, e.1 ≤ p) :
    spliceAll s ((p, r) :: rest) =
      spliceAll (s.take p) rest ++ (r ++ '\n' :: s.drop p) := by
  show spliceAll (insertAt s p r) rest = _
  have hins : insertAt s p r = s.take p ++ (r ++ '\n' :: s.drop p) := by
    unfold insertAt
    simp
  rw [hins]
  exact spliceAll_append rest (s.take p) _ fun e he => by
    rw [List.length_take]
    have := hrest e he
    omega

/-- The original text survives every insertion pass as a subsequence. -/
theorem spliceAll_sublist (L : List (Nat × List Char)) : ∀ (s : List Char),
    L.Pairwise (fun a b => b.1 ≤ a.1) → (∀ e ∈ L, e.1 ≤ s.length) →
    List.Sublist s (spliceAll s L) := by
  induction L with
  | nil => intro s _ _; exact List.Sublist.refl s
  | cons e rest ih =>
    intro s hpw hb
    obtain ⟨p, r⟩ := e
    rcases List.pairwise_cons.mp hpw with ⟨hhead, htail⟩
    have hp : p ≤ s.length := hb (p, r) (List.mem_cons_self _ _)
    rw [spliceAll_decomp s p r rest hp (fun e he => hhead e he)]
    have h1 : List.Sublist (s.take p) (spliceAll (s.take p) rest) :=
      ih (s.take p) htail fun e he => by
        rw [List.length_take]
        have := hhead e he
        omega
    have h2 : List.Sublist (s.drop p) (r ++ '\n' :: s.drop p) := by
      have : r ++ '\n' :: s.drop p = (r ++ ['\n']) ++ s.drop p := by simp
      rw [this]
      exact List.sublist_append_right _ _
    have h3 := List.Sublist.append h1 h2
    rw [List.take_append_drop] at h3
    exact h3

/-- Where each inserted string ends up: immediately followed by the
original text from its insertion offset, up to the next insertion point
(or the end of the subject). -/
theorem spliceAll_elem_decomp (L : List (Nat × List Char)) : ∀ (s : List Char),
    L.Pairwise (fun a b => b.1 < a.1) → (∀ e ∈ L, e.1 ≤ s.length) →
    ∀ e ∈ L, ∃ u w k, spliceAll s L = u ++ e.2 ++ '\n' :: w ∧
      List.IsPrefix ((s.drop e.1).take k) w ∧
      (k = s.length - e.1 ∨ ∃ e' ∈ L, e'.1 = e.1 + k ∧ 0 < k) := by
  induction L with
  | nil => intro s _ _ e he; cases he
  | cons hd rest ih =>
    intro s hpw hb e he
    obtain ⟨p, r⟩ := hd
    rcases List.pairwise_cons.mp hpw with ⟨hhead, htail⟩
    have hp : p ≤ s.length := hb (p, r) (List.mem_cons_self _ _)
    rw [spliceAll_decomp s p r rest hp (fun e' he' => le_of_lt (hhead e' he'))]
    rcases List.mem_cons.mp he with rfl | he'
    · refine ⟨spliceAll (s.take p) rest, s.drop p, s.length - p, ?_, ?_, Or.inl rfl⟩
      · simp
      · rw [← List.length_drop]
        rw [List.take_length]
    · have hbrest : ∀ e' ∈ rest, e'.1 ≤ (s.take p).length := fun e' he'' => by
        rw [List.length_take]
        have := hhead e' he''
        omega
      rcases ih (s.take p) htail hbrest e he' with ⟨u, w, k, hsplit, hpre, hk⟩
      have hep : e.1 < p := hhead e he'
      refine ⟨u, w ++ (r ++ '\n' :: s.drop p), k, ?_, ?_, ?_⟩
      · rw [hsplit]
        simp
      · -- translate the prefix through the take
        rw [List.drop_take] at hpre
        rw [List.take_take] at hpre
        rcases hk with hk | ⟨e'', he''mem, he''eq, he''pos⟩
        · rw [List.length_take] at hk
          have hkeq : min k (p - e.1) = k := by omega
          rw [hkeq] at hpre
          exact hpre.trans (List.prefix_append w _)
        · have : e''.1 < p := hhead e'' he''mem
          have hkeq : min k (p - e.1) = k := by omega
          rw [hkeq] at hpre
          exact hpre.trans (List.prefix_append w _)
      · rcases hk with hk | ⟨e'', he''mem, he''eq, he''pos⟩
        · rw [List.length_take] at hk
          refine Or.inr ⟨(p, r), List.mem_cons_self _ _, ?_, by omega⟩
          show p = e.1 + k
          omega
        · exact Or.inr ⟨e'', List.mem_cons_of_mem _ he''mem, he''eq, he''pos⟩

/-! ## Characterisation of the rectangle-building loop -/

/-- Abbreviation for the validity test `0 < line_num <= len(matches)`. -/
def validLine (k : Nat) (n : Int) : Prop := 0 < n ∧ n ≤ (k : Int)

instance (k : Nat) (n : Int) : Decidable (validLine k n) := by
  unfold validLine
  infer_instance

theorem buildRects_nil (ms : List RMatch) (fs lh : Dec) (w : Int) (color : List Char) :
    buildRects ms fs lh w color [] = .ok [] := rfl

theorem buildRects_cons_invalid {ms : List RMatch} {fs lh : Dec} {w : Int}
    {color : List Char} {n : Int} {rest : List Int}
    (h : ¬ validLine ms.length n) :
    buildRects ms fs lh w color (n :: rest) = buildRects ms fs lh w color rest := by
  unfold validLine at h
  conv_lhs => rw [buildRects]
  rw [if_neg h]

theorem buildRects_cons_valid {ms : List RMatch} {fs lh : Dec} {w : Int}
    {color : List Char} {n : Int} {rest : List Int}
    (h : validLine ms.length n) :
    buildRects ms fs lh w color (n :: rest) =
      match ms[(n - 1).toNat]? with
      | some m =>
        match pyFloat? ((cap1 m).getD []) with
        | some ypos =>
          (buildRects ms fs lh w color rest).map
            fun tail => (m.start, mkRect ypos fs lh w color) :: tail
        | none => .error .valueError
      | none => .error .valueError := by
  unfold validLine at h
  conv_lhs => rw [buildRects]
  rw [if_pos h]

/-- Under the validity test the index lookup succeeds. -/
theorem validLine_getElem {ms : List RMatch} {n : Int} (h : validLine ms.length n) :
    ∃ m, ms[(n - 1).toNat]? = some m := by
  rcases h with ⟨h1, h2⟩
  have hidx : (n - 1).toNat < ms.length := by omega
  exact ⟨ms[(n - 1).toNat], List.getElem?_eq_getElem hidx⟩

/-- Out-of-range entries do not influence the built rectangles at all. -/
theorem buildRects_filter (ms : List RMatch) (fs lh : Dec) (w : Int)
    (color : List Char) : ∀ hl : List Int,
    buildRects ms fs lh w color hl =
      buildRects ms fs lh w color (hl.filter fun n => decide (validLine ms.length n)) := by
  intro hl
  induction hl with
  | nil => rfl
  | cons n rest ih =>
    by_cases h : validLine ms.length n
    · rw [buildRects_cons_valid h]
      rw [List.filter_cons_of_pos (by simpa using h)]
      rw [buildRects_cons_valid h]
      rw [← ih]
    · rw [buildRects_cons_invalid h]
      rw [List.filter_cons_of_neg (by simpa using h)]
      exact ih

/-- One rectangle entry per valid requested line. -/
theorem buildRects_length (ms : List RMatch) (fs lh : Dec) (w : Int)
    (color : List Char) : ∀ (hl : List Int) (recs : List (Nat × SvgRect)),
    buildRects ms fs lh w color hl = .ok recs →
      recs.length = (hl.filter fun n => decide (validLine ms.length n)).length := by
  intro hl
  induction hl with
  | nil =>
    intro recs h
    rw [buildRects_nil] at h
    cases h
    rfl
  | cons n rest ih =>
    intro recs h
    by_cases hv : validLine ms.length n
    · rw [buildRects_cons_valid hv] at h
      split at h
      · rename_i m hm
        split at h
        · rename_i y hy
          rcases hrec : buildRects ms fs lh w color rest with e | tail
          · rw [hrec] at h
            cases h
          · rw [hrec] at h
            simp only [Except.map, Except.ok.injEq] at h
            rw [List.filter_cons_of_pos (by simpa using hv)]
            rw [← h]
            simp [ih tail hrec]
        · cases h
      · cases h
    · rw [buildRects_cons_invalid hv] at h
      rw [List.filter_cons_of_neg (by simpa using hv)]
      exact ih recs h

/-- Every built entry comes from a valid requested line: its position is
the start of the corresponding label match and its rectangle has the
computed geometry. -/
theorem buildRects_mem (ms : List RMatch) (fs lh : Dec) (w : Int)
    (color : List Char) : ∀ (hl : List Int) (recs : List (Nat × SvgRect)),
    buildRects ms fs lh w color hl = .ok recs →
      ∀ e ∈ recs, ∃ n ∈ hl, validLine ms.length n ∧
        ∃ m, ms[(n - 1).toNat]? = some m ∧
          ∃ y, pyFloat? ((cap1 m).getD []) = some y ∧
            e = (m.start, mkRect y fs lh w color) := by
  intro hl
  induction hl with
  | nil =>
    intro recs h e he
    rw [buildRects_nil] at h
    cases h
    cases he
  | cons n rest ih =>
    intro recs h e he
    by_cases hv : validLine ms.length n
    · rw [buildRects_cons_valid hv] at h
      split at h
      · rename_i m hm
        split at h
        · rename_i y hy
          rcases hrec : buildRects ms fs lh w color rest with e' | tail
          · rw [hrec] at h
            cases h
          · rw [hrec] at h
            simp only [Except.map, Except.ok.injEq] at h
            rw [← h] at he
            rcases List.mem_cons.mp he with rfl | he'
            · exact ⟨n, List.mem_cons_self _ _, hv, m, hm, y, hy, rfl⟩
            · rcases ih tail hrec e he' with ⟨n', hn', hv', m', hm', y', hy', he''⟩
              exact ⟨n', List.mem_cons_of_mem _ hn', hv', m', hm', y', hy', he''⟩
        · cases h
      · cases h
    · rw [buildRects_cons_invalid hv] at h
      rcases ih recs h e he with ⟨n', hn', rest'⟩
      exact ⟨n', List.mem_cons_of_mem _ hn', rest'⟩

/-- Conversely, every valid requested line has its entry among the built
rectangles. -/
theorem buildRects_forall (ms : List RMatch) (fs lh : Dec) (w : Int)
    (color : List Char) : ∀ (hl : List Int) (recs : List (Nat × SvgRect)),
    buildRects ms fs lh w color hl = .ok recs →
      ∀ n ∈ hl, validLine ms.length n →
        ∃ m, ms[(n - 1).toNat]? = some m ∧
          ∃ y, pyFloat? ((cap1 m).getD []) = some y ∧
            (m.start, mkRect y fs lh w color) ∈ recs := by
  intro hl
  induction hl with
  | nil =>
    intro recs h n hn
    cases hn
  | cons n0 rest ih =>
    intro recs h n hn hv
    by_cases hv0 : validLine ms.length n0
    · rw [buildRects_cons_valid hv0] at h
      split at h
      · rename_i m0 hm0
        split at h
        · rename_i y0 hy0
          rcases hrec : buildRects ms fs lh w color rest with e' | tail
          · rw [hrec] at h
            cases h
          · rw [hrec] at h
            simp only [Except.map, Except.ok.injEq] at h
            rcases List.mem_cons.mp hn with rfl | hn'
            · rw [hm0]
              refine ⟨m0, rfl, y0, hy0, ?_⟩
              rw [← h]
              exact List.mem_cons_self _ _
            · rcases ih tail hrec n hn' hv with ⟨m', hm', y', hy', hmem⟩
              exact ⟨m', hm', y', hy', by rw [← h]; exact List.mem_cons_of_mem _ hmem⟩
        · cases h
      · cases h
    · rw [buildRects_cons_invalid hv0] at h
      rcases List.mem_cons.mp hn with rfl | hn'
      · exact absurd hv hv0
      · exact ih recs h n hn' hv

/-! ## Sorting facts and `add_svg_highlights` branch equations -/

theorem sortDesc_sorted (l : List (Nat × List Char)) :
    (sortDesc l).Pairwise fun a b => b.1 ≤ a.1 := by
  haveI : IsTotal (Nat × List Char) fun a b => b.1 ≤ a.1 :=
    ⟨fun a b => by omega⟩
  haveI : IsTrans (Nat × List Char) fun a b => b.1 ≤ a.1 :=
    ⟨fun a b c hab hbc => by omega⟩
  exact List.sorted_insertionSort _ l

theorem sortDesc_perm (l : List (Nat × List Char)) : (sortDesc l).Perm l :=
  List.perm_insertionSort _ l

theorem sortDesc_mem {l : List (Nat × List Char)} {e : Nat × List Char} :
    e ∈ sortDesc l ↔ e ∈ l := (sortDesc_perm l).mem_iff

/-- With pairwise-distinct positions the descending sort is strict. -/
theorem sortDesc_strict (l : List (Nat × List Char))
    (hne : l.Pairwise fun a b => a.1 ≠ b.1) :
    (sortDesc l).Pairwise fun a b => b.1 < a.1 := by
  have h1 := sortDesc_sorted l
  have h2 : (sortDesc l).Pairwise fun a b => a.1 ≠ b.1 :=
    ((sortDesc_perm l).pairwise_iff fun h => h.symm).mpr hne
  exact (h1.and h2).imp fun hab => lt_of_le_of_ne hab.1 hab.2.symm

/-- Distinct indices into a start-sorted match list give distinct starts. -/
theorem matches_start_ne {ms : List RMatch}
    (hms : ms.Pairwise fun a b => a.start < b.start) :
    ∀ {i j : Nat} {mi mj : RMatch}, ms[i]? = some mi → ms[j]? = some mj →
      i ≠ j → mi.start ≠ mj.start := by
  intro i j mi mj hi hj hij
  rcases List.getElem?_eq_some_iff.mp hi with ⟨hi', rfl⟩
  rcases List.getElem?_eq_some_iff.mp hj with ⟨hj', rfl⟩
  have hget := List.pairwise_iff_get.mp hms
  rcases Nat.lt_or_ge i j with hlt | hge
  · have := hget ⟨i, hi'⟩ ⟨j, hj'⟩ hlt
    simp only [List.get_eq_getElem] at this
    omega
  · have hlt : j < i := by omega
    have := hget ⟨j, hj'⟩ ⟨i, hi'⟩ hlt
    simp only [List.get_eq_getElem] at this
    omega

/-- Under a duplicate-free request list, built entries have pairwise
distinct positions. -/
theorem buildRects_firsts_ne (ms : List RMatch) (fs lh : Dec) (w : Int)
    (color : List Char) (hms : ms.Pairwise fun a b => a.start < b.start) :
    ∀ (hl : List Int) (recs : List (Nat × SvgRect)), hl.Nodup →
    buildRects ms fs lh w color hl = .ok recs →
      recs.Pairwise fun a b => a.1 ≠ b.1 := by
  intro hl
  induction hl with
  | nil =>
    intro recs _ h
    rw [buildRects_nil] at h
    cases h
    exact List.Pairwise.nil
  | cons n rest ih =>
    intro recs hnd h
    rcases List.nodup_cons.mp hnd with ⟨hnmem, hndrest⟩
    by_cases hv : validLine ms.length n
    · rw [buildRects_cons_valid hv] at h
      split at h
      · rename_i m hm
        split at h
        · rename_i y hy
          rcases hrec : buildRects ms fs lh w color rest with e' | tail
          · rw [hrec] at h
            cases h
          · rw [hrec] at h
            simp only [Except.map, Except.ok.injEq] at h
            rw [← h]
            refine List.Pairwise.cons ?_ (ih tail hndrest hrec)
            intro e' he'
            rcases buildRects_mem ms fs lh w color rest tail hrec e' he' with
              ⟨n', hn', hv', m', hm', y', hy', rfl⟩
            show m.start ≠ m'.start
            refine matches_start_ne hms hm hm' ?_
            rcases hv with ⟨hv1, -⟩
            rcases hv' with ⟨hv1', -⟩
            have : n ≠ n' := fun heq => hnmem (heq ▸ hn')
            omega
        · cases h
      · cases h
    · rw [buildRects_cons_invalid hv] at h
      exact ih recs hndrest h

/-- The label matches of an SVG are strictly ordered by start offset. -/
theorem labelMatches_start_lt (svg : List Char) :
    (finditer textPattern svg).Pairwise fun a b => a.start < b.start :=
  (finditer_pairwise textPattern svg).imp fun h => h.2

theorem add_svg_highlights_empty (svg : List Char) (color : List Char) :
    add_svg_highlights svg [] color = .ok svg := rfl

theorem add_svg_highlights_noMatches {svg : List Char} (hl : List Int)
    (color : List Char) (hms : finditer textPattern svg = []) :
    add_svg_highlights svg hl color = .ok svg := by
  unfold add_svg_highlights
  by_cases hhl : hl = []
  · rw [if_pos hhl]
  · rw [if_neg hhl]
    show (if finditer textPattern svg = [] then Except.ok svg else _) = .ok svg
    rw [if_pos hms]

theorem add_svg_highlights_main {svg : List Char} {hl : List Int}
    {color : List Char} (hhl : hl ≠ []) (hms : finditer textPattern svg ≠ []) :
    add_svg_highlights svg hl color =
      (buildRects (finditer textPattern svg) (detectFontSize svg)
          ((detectFontSize svg).mul (decNorm 12 10)) (detectWidth svg) color hl).map
        fun recs => spliceAll svg (sortDesc (recs.map fun e => (e.1, renderRect e.2))) := by
  unfold add_svg_highlights
  rw [if_neg hhl]
  show (if finditer textPattern svg = [] then Except.ok svg else _) = _
  rw [if_neg hms]

set_option maxRecDepth 10000

/-- C7.  SVG injection is the identity in both degenerate cases: an empty
requested line list, or no label occurrence in the markup, return the
input unchanged (and, in particular, raise nothing). -/
theorem sp_C7 :
    (∀ svg color : List Char, add_svg_highlights svg [] color = .ok svg) ∧
    ∀ (svg : List Char) (hl : List Int) (color : List Char),
      finditer textPattern svg = [] → add_svg_highlights svg hl color = .ok svg := by
  refine ⟨fun svg color => add_svg_highlights_empty svg color, ?_⟩
  intro svg hl color hms
  exact add_svg_highlights_noMatches hl color hms

/-- Witness for C7 on markup with no label element. -/
theorem sp_C7_witness :
    add_svg_highlights "<p>hello</p>".data [1, 2] "#ffffcc".data =
      .ok "<p>hello</p>".data :=
  sp_C7.2 "<p>hello</p>".data [1, 2] "#ffffcc".data (by decide)

/-- Sample SVG markup in the shape produced by Pygments' `SvgFormatter`
(two right-anchored line-number labels), used by concrete witnesses. -/
def svgDemo : List Char :=
  "<svg w width=\"30\"><text q y=\"9\" text-anchor=\"end\">1</text><text q y=\"19\" text-anchor=\"end\">2</text></svg>".data

/-- The injector's output on `svgDemo` for lines `[1, 2]`. -/
def outDemo : List Char :=
  match add_svg_highlights svgDemo [1, 2] "#ffffcc".data with
  | .ok o => o
  | .error _ => []

/-- No requested line can be valid against an empty match list. -/
theorem buildRects_noMatches (fs lh : Dec) (w : Int) (color : List Char)
    (hl : List Int) : buildRects [] fs lh w color hl = .ok [] := by
  rw [buildRects_filter]
  have hfil : (hl.filter fun n => decide (validLine 0 n)) = [] := by
    apply List.filter_eq_nil_iff.mpr
    intro n _
    simp only [decide_eq_true_eq]
    unfold validLine
    intro hv
    omega
  simp only [List.length_nil] at hfil ⊢
  rw [hfil]
  rfl

/-- C10.  SVG injection only inserts: the input markup is a subsequence of
the output, every inserted entry sits at a label-match offset, and in the
non-degenerate case the output is exactly the input with the rendered
rectangles spliced in, from the highest offset down (`spliceAll` consumes
the descending-sorted entry list). -/
theorem sp_C10 :
    ∀ (svg : List Char) (hl : List Int) (color out : List Char),
      add_svg_highlights svg hl color = .ok out →
      List.Sublist svg out ∧
      ∃ recs, buildRects (finditer textPattern svg) (detectFontSize svg)
          ((detectFontSize svg).mul (decNorm 12 10)) (detectWidth svg) color hl = .ok recs ∧
        (∀ e ∈ recs, ∃ m ∈ finditer textPattern svg, e.1 = m.start) ∧
        (hl ≠ [] → out =
          spliceAll svg (sortDesc (recs.map fun e => (e.1, renderRect e.2)))) := by
  intro svg hl color out h
  by_cases hhl : hl = []
  · subst hhl
    rw [add_svg_highlights_empty] at h
    cases h
    refine ⟨List.Sublist.refl _, [], buildRects_nil _ _ _ _ _, by simp, by simp⟩
  · by_cases hms : finditer textPattern svg = []
    · rw [add_svg_highlights_noMatches hl color hms] at h
      cases h
      refine ⟨List.Sublist.refl _, [], ?_, by simp, ?_⟩
      · rw [hms]
        exact buildRects_noMatches _ _ _ _ _
      · intro hne
        rfl
    · rw [add_svg_highlights_main hhl hms] at h
      rcases hrec : buildRects (finditer textPattern svg) (detectFontSize svg)
          ((detectFontSize svg).mul (decNorm 12 10)) (detectWidth svg) color hl with e | recs
      · rw [hrec] at h
        cases h
      · rw [hrec] at h
        simp only [Except.map, Except.ok.injEq] at h
        have hposOf : ∀ e ∈ recs, ∃ m ∈ finditer textPattern svg, e.1 = m.start := by
          intro e he
          rcases buildRects_mem _ _ _ _ _ hl recs hrec e he with
            ⟨n, -, -, m, hm, y, -, rfl⟩
          rcases List.getElem?_eq_some_iff.mp hm with ⟨hlt, rfl⟩
          exact ⟨_, List.getElem_mem hlt, rfl⟩
        refine ⟨?_, recs, rfl, hposOf, fun _ => h.symm⟩
        rw [← h]
        apply spliceAll_sublist _ svg (sortDesc_sorted _)
        intro e he
        rcases List.mem_map.mp (sortDesc_mem.mp he) with ⟨rec, hrecmem, rfl⟩
        rcases hposOf rec hrecmem with ⟨m, hmmem, heq⟩
        have := finditer_mem_spec textPattern svg m hmmem
        show rec.1 ≤ svg.length
        omega

/-- Witness for C10 on the sample markup, both requested lines valid. -/
theorem sp_C10_witness :
    List.Sublist svgDemo outDemo ∧
    ∃ recs, buildRects (finditer textPattern svgDemo) (detectFontSize svgDemo)
        ((detectFontSize svgDemo).mul (decNorm 12 10)) (detectWidth svgDemo) "#ffffcc".data [1, 2] = .ok recs ∧
      (∀ e ∈ recs, ∃ m ∈ finditer textPattern svgDemo, e.1 = m.start) ∧
      (([1, 2] : List Int) ≠ [] → outDemo =
        spliceAll svgDemo (sortDesc (recs.map fun e => (e.1, renderRect e.2)))) :=
  sp_C10 svgDemo [1, 2] "#ffffcc".data outDemo (by decide)

/-! ## Exact values of the `Dec` arithmetic -/

theorem decNorm_den_pos (n : Int) (d : Nat) : 0 < (decNorm n d).den := by
  unfold decNorm
  by_cases hd : d = 0
  · rw [if_pos hd]
    exact Nat.one_pos
  · rw [if_neg hd]
    have hdpos : 0 < d := Nat.pos_of_ne_zero hd
    have hg : 0 < Nat.gcd n.natAbs d := Nat.gcd_pos_of_pos_right _ hdpos
    exact Nat.div_pos (Nat.le_of_dvd hdpos (Nat.gcd_dvd_right _ _)) hg

theorem Dec.add_den_pos (a b : Dec) : 0 < (a.add b).den := decNorm_den_pos _ _

theorem Dec.mul_den_pos (a b : Dec) : 0 < (a.mul b).den := decNorm_den_pos _ _

theorem Dec.neg_den_pos (a : Dec) (h : 0 < a.den) : 0 < a.neg.den := h

theorem Dec.sub_den_pos (a b : Dec) : 0 < (a.sub b).den := decNorm_den_pos _ _

theorem toRat_decNorm (n : Int) (d : Nat) (hd : d ≠ 0) :
    toRat (decNorm n d) = (n : ℚ) / (d : ℚ) := by
  unfold toRat decNorm
  rw [if_neg hd]
  have hdpos : 0 < d := Nat.pos_of_ne_zero hd
  have hg : 0 < Nat.gcd n.natAbs d := Nat.gcd_pos_of_pos_right _ hdpos
  have hgn : ((Nat.gcd n.natAbs d : Int)) ∣ n :=
    Int.dvd_natAbs.mp (Int.natCast_dvd_natCast.mpr (Nat.gcd_dvd_left _ _))
  have hgd : Nat.gcd n.natAbs d ∣ d := Nat.gcd_dvd_right _ _
  have hgQ : ((Nat.gcd n.natAbs d : Int) : ℚ) ≠ 0 := by
    simp only [ne_eq, Int.cast_natCast, Nat.cast_eq_zero]
    omega
  show ((n / (Nat.gcd n.natAbs d : Int) : Int) : ℚ) / ((d / Nat.gcd n.natAbs d : Nat) : ℚ) = _
  rw [Int.cast_div hgn hgQ]
  rw [Nat.cast_div hgd (by simpa using hgQ)]
  have h1 : ((Nat.gcd n.natAbs d : ℚ)) ≠ 0 := by
    simp only [ne_eq, Nat.cast_eq_zero]
    omega
  have h2 : ((d : ℚ)) ≠ 0 := by
    simp only [ne_eq, Nat.cast_eq_zero]
    omega
  push_cast
  field_simp

theorem toRat_ofInt (n : Int) : toRat (Dec.ofInt n) = (n : ℚ) := by
  unfold toRat Dec.ofInt
  simp

theorem toRat_neg (a : Dec) : toRat a.neg = -toRat a := by
  unfold toRat Dec.neg
  show ((-a.num : Int) : ℚ) / a.den = -((a.num : ℚ) / a.den)
  rw [Int.cast_neg, neg_div]

theorem toRat_add (a b : Dec) (ha : 0 < a.den) (hb : 0 < b.den) :
    toRat (a.add b) = toRat a + toRat b := by
  unfold Dec.add
  rw [toRat_decNorm _ _ (by positivity)]
  unfold toRat
  have ha' : ((a.den : ℚ)) ≠ 0 := by positivity
  have hb' : ((b.den : ℚ)) ≠ 0 := by positivity
  push_cast
  field_simp

theorem toRat_sub (a b : Dec) (ha : 0 < a.den) (hb : 0 < b.den) :
    toRat (a.sub b) = toRat a - toRat b := by
  unfold Dec.sub
  rw [toRat_add a b.neg ha (Dec.neg_den_pos b hb), toRat_neg]
  ring

theorem toRat_mul (a b : Dec) (ha : 0 < a.den) (hb : 0 < b.den) :
    toRat (a.mul b) = toRat a * toRat b := by
  unfold Dec.mul
  rw [toRat_decNorm _ _ (by positivity)]
  unfold toRat
  have ha' : ((a.den : ℚ)) ≠ 0 := by positivity
  have hb' : ((b.den : ℚ)) ≠ 0 := by positivity
  push_cast
  field_simp

/-- Helper extracting the value of a guarded `some`. -/
theorem ite_some_eq {α : Type} {C : Prop} [Decidable C] {v d : α}
    (h : (if C then some v else none) = some d) : d = v := by
  split at h
  · exact (Option.some_inj.mp h).symm
  · cases h

/-- Every value `pyFloat?` produces has a positive denominator. -/
theorem pyFloat?_den_pos {s : List Char} {d : Dec} (h : pyFloat? s = some d) :
    0 < d.den := by
  simp only [pyFloat?] at h
  split at h
  · rw [ite_some_eq h]
    split
    · exact Dec.neg_den_pos _ (Dec.add_den_pos _ _)
    · exact Dec.add_den_pos _ _
  · rw [ite_some_eq h]
    exact Dec.mul_den_pos _ _

/-- The detected font size has a positive denominator. -/
theorem detectFontSize_den_pos (svg : List Char) : 0 < (detectFontSize svg).den := by
  unfold detectFontSize
  split
  · rename_i m hm
    rcases hc : (cap1 m).bind pyFloat? with _ | q
    · exact Nat.one_pos
    · rcases Option.bind_eq_some.mp hc with ⟨t, -, hq⟩
      exact pyFloat?_den_pos hq
  · exact Nat.one_pos

/-- C6.  Geometry of the highlight rectangles: every rectangle the
building loop emits — run at the exact arguments `add_svg_highlights`
passes it — spans the detected drawing width, has band height
`1.2 × font size`, top edge `y − 0.85 × font size` where `y` is the
vertical coordinate captured from its label occurrence, the requested
fill colour, fill-opacity `0.3` and horizontal position `0`; the detected
font size defaults to 14 and the width to 800 when the respective
declarations are absent from the markup. -/
theorem sp_C6 :
    ∀ (svg : List Char) (hl : List Int) (color : List Char)
      (recs : List (Nat × SvgRect)),
      buildRects (finditer textPattern svg) (detectFontSize svg)
          ((detectFontSize svg).mul (decNorm 12 10)) (detectWidth svg) color hl
        = .ok recs →
      ((∀ e ∈ recs,
          e.2.width = detectWidth svg ∧
          toRat e.2.height = 12 / 10 * toRat (detectFontSize svg) ∧
          e.2.fill = color ∧
          toRat e.2.opacity = 3 / 10 ∧
          toRat e.2.x = 0 ∧
          ∃ m ∈ finditer textPattern svg, ∃ y : Dec,
            pyFloat? ((cap1 m).getD []) = some y ∧
            e.1 = m.start ∧
            toRat e.2.y = toRat y - 85 / 100 * toRat (detectFontSize svg)) ∧
        (reSearch fontPattern svg = none → detectFontSize svg = Dec.ofInt 14) ∧
        (reSearch widthPattern svg = none → detectWidth svg = 800)) := by
  intro svg hl color recs h
  refine ⟨?_, ?_, ?_⟩
  · intro e he
    rcases buildRects_mem _ _ _ _ _ hl recs h e he with
      ⟨n, hn, hv, m, hm, y, hy, rfl⟩
    refine ⟨rfl, ?_, rfl, ?_, ?_, m, List.getElem?_mem hm, y, hy, rfl, ?_⟩
    · show toRat ((detectFontSize svg).mul (decNorm 12 10))
        = 12 / 10 * toRat (detectFontSize svg)
      rw [toRat_mul _ _ (detectFontSize_den_pos svg) (decNorm_den_pos _ _),
        toRat_decNorm _ _ (by omega)]
      push_cast
      ring
    · show toRat (decNorm 3 10) = 3 / 10
      rw [toRat_decNorm _ _ (by omega)]
      norm_num
    · show toRat (Dec.ofInt 0) = 0
      rw [toRat_ofInt]
      norm_num
    · show toRat (y.sub ((detectFontSize svg).mul (decNorm 85 100)))
        = toRat y - 85 / 100 * toRat (detectFontSize svg)
      rw [toRat_sub _ _ (pyFloat?_den_pos hy) (Dec.mul_den_pos _ _),
        toRat_mul _ _ (detectFontSize_den_pos svg) (decNorm_den_pos _ _),
        toRat_decNorm _ _ (by omega)]
      push_cast
      ring
  · intro hnone
    unfold detectFontSize
    rw [hnone]
  · intro hnone
    unfold detectWidth
    rw [hnone]

/-- Witness for C6 on the sample markup `svgDemo` (no font-size
declaration, so font size 14; width attribute 30): the two rectangles
built for lines 1 and 2 are computed concretely and satisfy every
geometric conjunct. -/
theorem sp_C6_witness :
    buildRects (finditer textPattern svgDemo) (detectFontSize svgDemo)
        ((detectFontSize svgDemo).mul (decNorm 12 10)) (detectWidth svgDemo)
        ("#ffffcc".data) [1, 2]
      = .ok [(18, ⟨⟨0, 1⟩, ⟨-29, 10⟩, 30, ⟨84, 5⟩, "#ffffcc".data, ⟨3, 10⟩⟩),
             (58, ⟨⟨0, 1⟩, ⟨71, 10⟩, 30, ⟨84, 5⟩, "#ffffcc".data, ⟨3, 10⟩⟩)] ∧
    ((∀ e ∈ [((18 : Nat), (⟨⟨0, 1⟩, ⟨-29, 10⟩, 30, ⟨84, 5⟩, "#ffffcc".data,
                ⟨3, 10⟩⟩ : SvgRect)),
              (58, ⟨⟨0, 1⟩, ⟨71, 10⟩, 30, ⟨84, 5⟩, "#ffffcc".data, ⟨3, 10⟩⟩)],
        e.2.width = detectWidth svgDemo ∧
        toRat e.2.height = 12 / 10 * toRat (detectFontSize svgDemo) ∧
        e.2.fill = "#ffffcc".data ∧
        toRat e.2.opacity = 3 / 10 ∧
        toRat e.2.x = 0 ∧
        ∃ m ∈ finditer textPattern svgDemo, ∃ y : Dec,
          pyFloat? ((cap1 m).getD []) = some y ∧
          e.1 = m.start ∧
          toRat e.2.y = toRat y - 85 / 100 * toRat (detectFontSize svgDemo)) ∧
      (reSearch fontPattern svgDemo = none → detectFontSize svgDemo = Dec.ofInt 14) ∧
      (reSearch widthPattern svgDemo = none → detectWidth svgDemo = 800)) :=
  ⟨by decide, sp_C6 svgDemo [1, 2] ("#ffffcc".data) _ (by decide)⟩

/-- Matches reported by a scan do not overlap: a match that starts earlier
ends at or before the start of any later one. -/
theorem finditer_chain (r : RE) (s : List Char) :
    ∀ m ∈ finditer r s, ∀ m' ∈ finditer r s,
      m.start < m'.start → m.stop ≤ m'.start := by
  intro m hm m' hm' hlt
  have hget := List.pairwise_iff_get.mp (finditer_pairwise r s)
  rcases List.mem_iff_get.mp hm with ⟨i, rfl⟩
  rcases List.mem_iff_get.mp hm' with ⟨j, rfl⟩
  rcases lt_trichotomy i j with hij | hij | hij
  · exact (hget i j hij).1
  · rw [hij] at hlt
    exact absurd hlt (lt_irrefl _)
  · have h2 := (hget j i hij).2
    omega

/-- Every entry of the sorted insertion list sits at a label-match start
offset (shared helper for the splice decomposition). -/
theorem sortedEntries_pos {svg : List Char} {hl : List Int}
    {color : List Char} {recs : List (Nat × SvgRect)}
    (hrec : buildRects (finditer textPattern svg) (detectFontSize svg)
        ((detectFontSize svg).mul (decNorm 12 10)) (detectWidth svg) color hl
      = .ok recs) :
    ∀ e ∈ sortDesc (recs.map fun e => (e.1, renderRect e.2)),
      ∃ m ∈ finditer textPattern svg, e.1 = m.start := by
  intro e he
  rcases List.mem_map.mp (sortDesc_mem.mp he) with ⟨rec, hrecmem, rfl⟩
  rcases buildRects_mem _ _ _ _ _ hl recs hrec rec hrecmem with
    ⟨n', -, -, m', hm', y', -, rfl⟩
  exact ⟨m', List.getElem?_mem hm', rfl⟩

/-- C2.  Rectangle insertion per requested line: out-of-range requested
numbers are dropped silently (filtering them away does not change the
built rectangles at all), and in the non-degenerate case exactly one
rectangle is built per valid requested line (the counts agree with the
filtered request list), each valid line `n` contributing the rectangle
anchored at the `n`-th label match, whose rendered text appears in the
output immediately before the text of that label occurrence. -/
theorem sp_C2 :
    ∀ (svg : List Char) (hl : List Int) (color out : List Char),
      hl.Nodup →
      add_svg_highlights svg hl color = .ok out →
      buildRects (finditer textPattern svg) (detectFontSize svg)
          ((detectFontSize svg).mul (decNorm 12 10)) (detectWidth svg) color hl
        = buildRects (finditer textPattern svg) (detectFontSize svg)
            ((detectFontSize svg).mul (decNorm 12 10)) (detectWidth svg) color
            (hl.filter fun n =>
              decide (validLine (finditer textPattern svg).length n)) ∧
      (hl ≠ [] → finditer textPattern svg ≠ [] →
        ∃ recs,
          buildRects (finditer textPattern svg) (detectFontSize svg)
              ((detectFontSize svg).mul (decNorm 12 10)) (detectWidth svg) color hl
            = .ok recs ∧
          recs.length = (hl.filter fun n =>
            decide (validLine (finditer textPattern svg).length n)).length ∧
          ∀ n ∈ hl, validLine (finditer textPattern svg).length n →
            ∃ m, (finditer textPattern svg)[(n - 1).toNat]? = some m ∧
            ∃ y, pyFloat? ((cap1 m).getD []) = some y ∧
              (m.start, mkRect y (detectFontSize svg)
                  ((detectFontSize svg).mul (decNorm 12 10)) (detectWidth svg) color)
                ∈ recs ∧
              ∃ u w k,
                out = u ++ renderRect (mkRect y (detectFontSize svg)
                    ((detectFontSize svg).mul (decNorm 12 10)) (detectWidth svg) color)
                  ++ '\n' :: w ∧
                List.IsPrefix ((svg.drop m.start).take k) w ∧
                m.stop - m.start ≤ k) := by
  intro svg hl color out hnd h
  refine ⟨buildRects_filter _ _ _ _ _ hl, ?_⟩
  intro hhl hms
  rw [add_svg_highlights_main hhl hms] at h
  rcases hrec : buildRects (finditer textPattern svg) (detectFontSize svg)
      ((detectFontSize svg).mul (decNorm 12 10)) (detectWidth svg) color hl
    with e | recs
  · rw [hrec] at h
    cases h
  · rw [hrec] at h
    simp only [Except.map, Except.ok.injEq] at h
    refine ⟨recs, rfl, buildRects_length _ _ _ _ _ hl recs hrec, ?_⟩
    intro n hn hv
    rcases buildRects_forall _ _ _ _ _ hl recs hrec n hn hv with ⟨m, hm, y, hy, hmem⟩
    refine ⟨m, hm, y, hy, hmem, ?_⟩
    have hmmem : m ∈ finditer textPattern svg := List.getElem?_mem hm
    have hstrict : (sortDesc (recs.map fun e => (e.1, renderRect e.2))).Pairwise
        fun a b => b.1 < a.1 := by
      apply sortDesc_strict
      have hne := buildRects_firsts_ne _ _ _ _ _
        (labelMatches_start_lt svg) hl recs hnd hrec
      exact List.pairwise_map.mpr (hne.imp fun hx => hx)
    have hbound : ∀ e ∈ sortDesc (recs.map fun e => (e.1, renderRect e.2)),
        e.1 ≤ svg.length := by
      intro e he
      rcases sortedEntries_pos hrec e he with ⟨m', hm'mem, heq⟩
      have := finditer_mem_spec textPattern svg m' hm'mem
      omega
    have heL : ((m.start, renderRect (mkRect y (detectFontSize svg)
          ((detectFontSize svg).mul (decNorm 12 10)) (detectWidth svg) color))
          : Nat × List Char)
        ∈ sortDesc (recs.map fun e => (e.1, renderRect e.2)) :=
      sortDesc_mem.mpr (List.mem_map.mpr ⟨_, hmem, rfl⟩)
    rcases spliceAll_elem_decomp _ svg hstrict hbound _ heL with
      ⟨u, w', k, hsplit, hpre, hk⟩
    refine ⟨u, w', k, ?_, hpre, ?_⟩
    · rw [← h]
      exact hsplit
    · obtain ⟨hms1, hms2, -⟩ := finditer_mem_spec textPattern svg m hmmem
      rcases hk with hk | ⟨e', he'mem, he'eq, hkpos⟩
      · have hk' : k = svg.length - m.start := hk
        omega
      · rcases sortedEntries_pos hrec e' he'mem with ⟨m', hm'mem, hpos⟩
        have he'eq' : e'.1 = m.start + k := he'eq
        have hlt : m.start < m'.start := by omega
        have := finditer_chain textPattern svg m hmmem m' hm'mem hlt
        omega

/-- The injector's output on `svgDemo` for the request `[1, 5]`, whose
second entry exceeds the two available labels. -/
def outDemo2 : List Char :=
  match add_svg_highlights svgDemo [1, 5] "#ffffcc".data with
  | .ok o => o
  | .error _ => []

/-- Witness for C2 on the sample markup with request `[1, 5]`: line 5 is
beyond the two labels and is silently dropped, line 1 gets its rectangle
immediately before the first label occurrence. -/
theorem sp_C2_witness :
    buildRects (finditer textPattern svgDemo) (detectFontSize svgDemo)
        ((detectFontSize svgDemo).mul (decNorm 12 10)) (detectWidth svgDemo)
        ("#ffffcc".data) [1, 5]
      = buildRects (finditer textPattern svgDemo) (detectFontSize svgDemo)
          ((detectFontSize svgDemo).mul (decNorm 12 10)) (detectWidth svgDemo)
          ("#ffffcc".data)
          (([1, 5] : List Int).filter fun n =>
            decide (validLine (finditer textPattern svgDemo).length n)) ∧
    (([1, 5] : List Int) ≠ [] → finditer textPattern svgDemo ≠ [] →
      ∃ recs,
        buildRects (finditer textPattern svgDemo) (detectFontSize svgDemo)
            ((detectFontSize svgDemo).mul (decNorm 12 10)) (detectWidth svgDemo)
            ("#ffffcc".data) [1, 5]
          = .ok recs ∧
        recs.length = (([1, 5] : List Int).filter fun n =>
          decide (validLine (finditer textPattern svgDemo).length n)).length ∧
        ∀ n ∈ ([1, 5] : List Int),
          validLine (finditer textPattern svgDemo).length n →
          ∃ m, (finditer textPattern svgDemo)[(n - 1).toNat]? = some m ∧
          ∃ y, pyFloat? ((cap1 m).getD []) = some y ∧
            (m.start, mkRect y (detectFontSize svgDemo)
                ((detectFontSize svgDemo).mul (decNorm 12 10)) (detectWidth svgDemo)
                ("#ffffcc".data))
              ∈ recs ∧
            ∃ u w k,
              outDemo2 = u ++ renderRect (mkRect y (detectFontSize svgDemo)
                  ((detectFontSize svgDemo).mul (decNorm 12 10)) (detectWidth svgDemo)
                  ("#ffffcc".data))
                ++ '\n' :: w ∧
              List.IsPrefix ((svgDemo.drop m.start).take k) w ∧
              m.stop - m.start ≤ k) :=
  sp_C2 svgDemo [1, 5] ("#ffffcc".data) outDemo2 (by decide) (by decide)

/-- Digits never render as a colon. -/
theorem digitChar_ne_colon (k : Nat) (hk : k < 10) : digitChar k ≠ ':' := by
  interval_cases k <;> decide

/-- The digit writer emits no colon. -/
theorem natReprF_no_colon : ∀ (f n : Nat), ':' ∉ natReprF f n := by
  intro f
  induction f with
  | zero =>
    intro n h
    simp only [natReprF] at h
    cases h
  | succ f ih =>
    intro n h
    simp only [natReprF] at h
    by_cases hn : n < 10
    · rw [if_pos hn] at h
      exact digitChar_ne_colon n hn (List.mem_singleton.mp h).symm
    · rw [if_neg hn] at h
      rcases List.mem_append.mp h with h1 | h2
      · exact ih _ h1
      · exact digitChar_ne_colon (n % 10) (Nat.mod_lt _ (by omega))
          (List.mem_singleton.mp h2).symm

theorem natRepr_no_colon (n : Nat) : ':' ∉ natRepr n := natReprF_no_colon _ _

theorem intRepr_no_colon (i : Int) : ':' ∉ intRepr i := by
  intro h
  unfold intRepr at h
  by_cases hi : i < 0
  · rw [if_pos hi] at h
    rcases List.mem_cons.mp h with h1 | h2
    · cases h1
    · exact natRepr_no_colon _ h2
  · rw [if_neg hi] at h
    exact natRepr_no_colon _ h

theorem decimalOfRatPos_no_colon (q : Dec) : ':' ∉ decimalOfRatPos q := by
  intro h
  simp only [decimalOfRatPos] at h
  split at h
  · split at h
    · exact natRepr_no_colon _ h
    · rcases List.mem_append.mp h with h1 | h2
      · have h1' := List.take_subset _ _ h1
        split at h1'
        · rcases List.mem_append.mp h1' with h3 | h4
          · exact absurd (List.eq_of_mem_replicate h3) (by decide)
          · exact natRepr_no_colon _ h4
        · exact natRepr_no_colon _ h1'
      · rcases List.mem_cons.mp h2 with h3 | h4
        · cases h3
        · have h4' := List.drop_subset _ _ h4
          split at h4'
          · rcases List.mem_append.mp h4' with h5 | h6
            · exact absurd (List.eq_of_mem_replicate h5) (by decide)
            · exact natRepr_no_colon _ h6
          · exact natRepr_no_colon _ h4'
  · rcases List.mem_append.mp h with h1 | h2
    · exact natRepr_no_colon _ h1
    · rcases List.mem_cons.mp h2 with h3 | h4
      · cases h3
      · exact natRepr_no_colon _ h4

theorem decimalOfRat_no_colon (q : Dec) : ':' ∉ decimalOfRat q := by
  intro h
  unfold decimalOfRat at h
  split at h
  · rcases List.mem_cons.mp h with h1 | h2
    · cases h1
    · exact decimalOfRatPos_no_colon _ h2
  · exact decimalOfRatPos_no_colon _ h

/-- A rendered rectangle contains no colon when the fill colour has
none. -/
theorem renderRect_no_colon (r : SvgRect) (hf : ':' ∉ r.fill) :
    ':' ∉ renderRect r := by
  intro h
  unfold renderRect at h
  simp only [List.mem_append] at h
  rcases h with ((((((((((((h | h) | h) | h) | h) | h) | h) | h) | h) | h) | h) | h) | h)
  · exact absurd h (by decide)
  · exact decimalOfRat_no_colon _ h
  · exact absurd h (by decide)
  · exact decimalOfRat_no_colon _ h
  · exact absurd h (by decide)
  · exact intRepr_no_colon _ h
  · exact absurd h (by decide)
  · exact decimalOfRat_no_colon _ h
  · exact absurd h (by decide)
  · exact hf h
  · exact absurd h (by decide)
  · exact decimalOfRat_no_colon _ h
  · exact absurd h (by decide)

/-- Unfolding equation for the replace loop on a cons cell. -/
theorem pyRepF_succ_cons (pat repl : List Char) (f : Nat) (c : Char)
    (t : List Char) :
    pyRepF pat repl (f + 1) (c :: t) =
      if pat ≠ [] ∧ pat <+: (c :: t) then
        repl ++ pyRepF pat repl f ((c :: t).drop pat.length)
      else c :: pyRepF pat repl f t := rfl

/-- A segment ending in a character foreign to the pattern, and containing
no pattern occurrence, survives the replace loop as a prefix when it sits
at the front of the subject. -/
theorem pyRepF_front_seg (pat repl : List Char) (cl : Char) (hcl : cl ∉ pat) :
    ∀ (f : Nat) (m2 b : List Char), m2.getLast? = some cl → ¬ pat <:+: m2 →
      m2 <+: pyRepF pat repl f (m2 ++ b) := by
  intro f
  induction f with
  | zero =>
    intro m2 b _ _
    exact ⟨b, rfl⟩
  | succ f ih =>
    intro m2 b hlast hinf
    rcases m2 with _ | ⟨c, m2'⟩
    · cases hlast
    · show (c :: m2') <+: pyRepF pat repl (f + 1) (c :: (m2' ++ b))
      rw [pyRepF_succ_cons]
      by_cases hmatch : pat ≠ [] ∧ pat <+: (c :: (m2' ++ b))
      · exfalso
        rcases hmatch with ⟨hne, hpre⟩
        by_cases hlen : pat.length ≤ (c :: m2').length
        · have h1 : pat = (c :: (m2' ++ b)).take pat.length :=
            List.prefix_iff_eq_take.mp hpre
          rw [show c :: (m2' ++ b) = (c :: m2') ++ b from rfl,
            List.take_append_of_le_length hlen] at h1
          refine hinf ?_
          have h2 : (c :: m2').take pat.length <+: (c :: m2') :=
            ⟨(c :: m2').drop pat.length, List.take_append_drop _ _⟩
          rw [← h1] at h2
          exact h2.isInfix
        · push_neg at hlen
          have hj : (c :: m2').length - 1 < pat.length := by
            have : 0 < (c :: m2').length := by simp
            omega
          have hlast' : (c :: m2')[(c :: m2').length - 1]? = some cl := by
            rw [← List.getLast?_eq_getElem?]
            exact hlast
          have hs : (c :: (m2' ++ b))[(c :: m2').length - 1]? = some cl := by
            rw [show c :: (m2' ++ b) = (c :: m2') ++ b from rfl]
            rw [List.getElem?_append_left (by
              have h0 : (c :: m2').length = m2'.length + 1 := by simp
              omega)]
            exact hlast'
          have h1 : pat = (c :: (m2' ++ b)).take pat.length :=
            List.prefix_iff_eq_take.mp hpre
          have hpat : pat[(c :: m2').length - 1]? = some cl := by
            rw [h1, List.getElem?_take, if_pos hj]
            exact hs
          exact hcl (List.getElem?_mem hpat)
      · rw [if_neg hmatch]
        rcases m2' with _ | ⟨c2, m2''⟩
        · exact ⟨pyRepF pat repl f b, rfl⟩
        · rw [List.getLast?_cons_cons] at hlast
          have hinf' : ¬ pat <:+: (c2 :: m2'') := fun hx =>
            hinf (hx.trans (List.suffix_cons c _).isInfix)
          rcases ih (c2 :: m2'') b hlast hinf' with ⟨t, ht⟩
          exact ⟨t, by rw [← ht]; rfl⟩

/-- A segment whose first and last characters are foreign to the pattern,
and containing no pattern occurrence, survives the replace loop intact
wherever it sits in the subject. -/
theorem pyRepF_keeps_seg (pat repl : List Char) (c0 cl : Char)
    (hc0 : c0 ∉ pat) (hcl : cl ∉ pat) :
    ∀ (f : Nat) (a m b : List Char), m.head? = some c0 → m.getLast? = some cl →
      ¬ pat <:+: m → m <:+: pyRepF pat repl f (a ++ m ++ b) := by
  intro f
  induction f with
  | zero =>
    intro a m b _ _ _
    exact ⟨a, b, rfl⟩
  | succ f ih =>
    intro a m b hhead hlast hinf
    rcases a with _ | ⟨ca, a'⟩
    · exact (pyRepF_front_seg pat repl cl hcl (f + 1) m b hlast hinf).isInfix
    · show m <:+: pyRepF pat repl (f + 1) (ca :: (a' ++ m ++ b))
      rw [pyRepF_succ_cons]
      by_cases hmatch : pat ≠ [] ∧ pat <+: (ca :: (a' ++ m ++ b))
      · rw [if_pos hmatch]
        rcases hmatch with ⟨hne, hpre⟩
        by_cases hlen : pat.length ≤ (ca :: a').length
        · have hdrop : (ca :: (a' ++ m ++ b)).drop pat.length
              = ((ca :: a').drop pat.length) ++ m ++ b := by
            rw [show ca :: (a' ++ m ++ b) = (ca :: a') ++ (m ++ b) by simp,
              List.drop_append_of_le_length hlen, List.append_assoc]
          rw [hdrop]
          rcases ih ((ca :: a').drop pat.length) m b hhead hlast hinf with
            ⟨u, v, huv⟩
          exact ⟨repl ++ u, v, by simp only [List.append_assoc] at huv ⊢; rw [huv]⟩
        · exfalso
          push_neg at hlen
          rcases m with _ | ⟨cm, m'⟩
          · cases hhead
          · have hc : cm = c0 := by cases hhead; rfl
            subst hc
            have hj : (ca :: a').length < pat.length := hlen
            have hs : (ca :: (a' ++ (cm :: m') ++ b))[(ca :: a').length]?
                = some cm := by
              rw [show ca :: (a' ++ (cm :: m') ++ b)
                  = (ca :: a') ++ ((cm :: m') ++ b) by simp]
              rw [List.getElem?_append_right (le_refl _)]
              simp
            have h1 : pat = (ca :: (a' ++ (cm :: m') ++ b)).take pat.length :=
              List.prefix_iff_eq_take.mp hpre
            have hpat : pat[(ca :: a').length]? = some cm := by
              rw [h1, List.getElem?_take, if_pos hj]
              exact hs
            exact hc0 (List.getElem?_mem hpat)
      · rw [if_neg hmatch]
        rcases ih a' m b hhead hlast hinf with ⟨u, v, huv⟩
        refine ⟨ca :: u, v, ?_⟩
        simp only [List.append_assoc, List.cons_append] at huv ⊢
        rw [huv]

/-- Top-level segment preservation for `pyReplace`. -/
theorem pyReplace_keeps_seg {pat repl s : List Char} {c0 cl : Char}
    (hc0 : c0 ∉ pat) (hcl : cl ∉ pat) {m a b : List Char}
    (hs : s = a ++ m ++ b) (hhead : m.head? = some c0)
    (hlast : m.getLast? = some cl) (hinf : ¬ pat <:+: m) :
    m <:+: pyReplace s pat repl := by
  rw [pyReplace, hs]
  exact pyRepF_keeps_seg pat repl c0 cl hc0 hcl _ a m b hhead hlast hinf

/-- A rendered rectangle followed by its newline starts with `'<'`. -/
theorem renderRect_head (r : SvgRect) :
    (renderRect r ++ ['\n']).head? = some '<' := rfl

/-- C8 (amended).  The SVG transparency pass runs after
highlight-rectangle insertion (`svgPostProcess` applies `pyReplace` to the
injected output), and it leaves every inserted rectangle intact PROVIDED
the requested colour contains no colon (true of any real colour value):
each rectangle's full text, newline included, is still an infix of the
post-processed output.  Without that proviso the claim is false — a colour
containing the needle `'background: #'` sits inside the rectangle's
`fill="..."` attribute and is rewritten, as the counterexample shows. -/
theorem sp_C8_amended :
    ∀ (svg : List Char) (hl : List Int) (color out : List Char),
      hl.Nodup → ':' ∉ color →
      add_svg_highlights svg hl color = .ok out →
      svgPostProcess svg hl color true = .ok (pyReplace out bgPat bgRepl) ∧
      ∀ recs, buildRects (finditer textPattern svg) (detectFontSize svg)
          ((detectFontSize svg).mul (decNorm 12 10)) (detectWidth svg) color hl
          = .ok recs →
        ∀ e ∈ recs,
          renderRect e.2 ++ ['\n'] <:+: out ∧
          renderRect e.2 ++ ['\n'] <:+: pyReplace out bgPat bgRepl := by
  intro svg hl color out hnd hcol h
  constructor
  · unfold svgPostProcess
    by_cases hhl : hl = []
    · subst hhl
      rw [add_svg_highlights_empty] at h
      cases h
      rw [if_neg (by simp)]
      rfl
    · rw [if_pos hhl, h]
      rfl
  · intro recs hrec e he
    by_cases hhl : hl = []
    · subst hhl
      rw [buildRects_nil] at hrec
      cases hrec
      cases he
    · by_cases hms : finditer textPattern svg = []
      · rw [hms, buildRects_noMatches] at hrec
        cases hrec
        cases he
      · rw [add_svg_highlights_main hhl hms, hrec] at h
        simp only [Except.map, Except.ok.injEq] at h
        have hstrict : (sortDesc (recs.map fun e => (e.1, renderRect e.2))).Pairwise
            fun a b => b.1 < a.1 := by
          apply sortDesc_strict
          have hne := buildRects_firsts_ne _ _ _ _ _
            (labelMatches_start_lt svg) hl recs hnd hrec
          exact List.pairwise_map.mpr (hne.imp fun hx => hx)
        have hbound : ∀ e ∈ sortDesc (recs.map fun e => (e.1, renderRect e.2)),
            e.1 ≤ svg.length := by
          intro e he
          rcases sortedEntries_pos hrec e he with ⟨m', hm'mem, heq⟩
          have := finditer_mem_spec textPattern svg m' hm'mem
          omega
        have heL : ((e.1, renderRect e.2) : Nat × List Char)
            ∈ sortDesc (recs.map fun e => (e.1, renderRect e.2)) :=
          sortDesc_mem.mpr (List.mem_map.mpr ⟨e, he, rfl⟩)
        rcases spliceAll_elem_decomp _ svg hstrict hbound _ heL with
          ⟨u, w', k, hsplit, -, -⟩
        have hout : out = u ++ (renderRect e.2 ++ ['\n']) ++ w' := by
          rw [← h, hsplit]
          simp
        obtain ⟨n, -, -, mm, hmm, y, -, heq⟩ :=
          buildRects_mem _ _ _ _ _ hl recs hrec e he
        have hfill : e.2.fill = color := by
          rw [heq]
          rfl
        have hinf : ¬ bgPat <:+: (renderRect e.2 ++ ['\n']) := by
          intro hx
          have hcmem : ':' ∈ renderRect e.2 ++ ['\n'] := hx.subset (by decide)
          rcases List.mem_append.mp hcmem with h1 | h2
          · exact renderRect_no_colon e.2 (by rw [hfill]; exact hcol) h1
          · simp at h2
        refine ⟨⟨u, w', hout.symm⟩, ?_⟩
        exact pyReplace_keeps_seg (by decide) (by decide) hout
          (renderRect_head e.2) (List.getLast?_concat _) hinf

/-- The injector's output on `svgDemo` for line `[1]` with the adversarial
colour `'background: #0'`. -/
def outDemoC8 : List Char :=
  match add_svg_highlights svgDemo [1] "background: #0".data with
  | .ok o => o
  | .error _ => []

/-- Counterexample to C8 as stated over every colour: with the colour
`'background: #0'` the inserted rectangle's `fill` attribute contains the
transparency needle, so the pass rewrites the rectangle — its original
text is an infix of the injected output but not of the post-processed
one. -/
theorem sp_C8_cex :
    add_svg_highlights svgDemo [1] ("background: #0".data) = .ok outDemoC8 ∧
    "fill=\"background: #0\"".data <:+: outDemoC8 ∧
    ¬ "fill=\"background: #0\"".data <:+: pyReplace outDemoC8 bgPat bgRepl :=
  ⟨by decide, by decide, by decide⟩

/-- Witness for the amended C8 on the sample markup, colon-free colour
`'#ffffcc'`: the post-process applies the replace to the injected output
and both rectangles survive it verbatim. -/
theorem sp_C8_amended_witness :
    svgPostProcess svgDemo [1, 2] ("#ffffcc".data) true
        = .ok (pyReplace outDemo bgPat bgRepl) ∧
    ∀ recs, buildRects (finditer textPattern svgDemo) (detectFontSize svgDemo)
        ((detectFontSize svgDemo).mul (decNorm 12 10)) (detectWidth svgDemo)
        ("#ffffcc".data) [1, 2]
        = .ok recs →
      ∀ e ∈ recs,
        renderRect e.2 ++ ['\n'] <:+: outDemo ∧
        renderRect e.2 ++ ['\n'] <:+: pyReplace outDemo bgPat bgRepl :=
  sp_C8_amended svgDemo [1, 2] ("#ffffcc".data) outDemo
    (by decide) (by decide) (by decide)

/-! ## Inversion of the matcher on the HTML patterns -/

theorem reM_seq_mem {a b : RE} {s : List Char}
    {c : Nat × List (Nat × List Char)} (h : c ∈ reM (.seq a b) s) :
    ∃ m1, m1 ∈ reM a s ∧ ∃ m2, m2 ∈ reM b (s.drop m1.1) ∧
      c = (m1.1 + m2.1, m1.2 ++ m2.2) := by
  rw [reM_seq] at h
  rcases List.mem_flatMap.mp h with ⟨m1, hm1, hmap⟩
  rcases List.mem_map.mp hmap with ⟨m2, hm2, heq⟩
  exact ⟨m1, hm1, m2, hm2, heq.symm⟩

theorem reM_lit_mem {l s : List Char} {c : Nat × List (Nat × List Char)}
    (h : c ∈ reM (.lit l) s) : c = (l.length, []) ∧ l <+: s := by
  rw [reM_lit] at h
  by_cases hp : l <+: s
  · rw [if_pos hp] at h
    exact ⟨List.mem_singleton.mp h, hp⟩
  · rw [if_neg hp] at h
    cases h

theorem reM_alt_mem {a b : RE} {s : List Char}
    {c : Nat × List (Nat × List Char)} (h : c ∈ reM (.alt a b) s) :
    c ∈ reM a s ∨ c ∈ reM b s := by
  rw [reM_alt] at h
  exact List.mem_append.mp h

theorem reM_group_mem {n : Nat} {a : RE} {s : List Char}
    {c : Nat × List (Nat × List Char)} (h : c ∈ reM (.group n a) s) :
    ∃ m, m ∈ reM a s ∧ c = (m.1, m.2 ++ [(n, s.take m.1)]) := by
  rw [reM_group] at h
  rcases List.mem_map.mp h with ⟨m, hm, heq⟩
  exact ⟨m, hm, heq.symm⟩

/-- Two consecutive literal prefixes combine. -/
theorem prefix_stack {l1 l2 s : List Char} (h1 : l1 <+: s)
    (h2 : l2 <+: s.drop l1.length) : (l1 ++ l2) <+: s := by
  rcases h1 with ⟨t, rfl⟩
  rw [List.drop_left] at h2
  rcases h2 with ⟨t2, ht⟩
  exact ⟨t2, by rw [List.append_assoc, ht]⟩

/-- Every candidate match of the container pattern starts with one of the
three container tags. -/
theorem containerPattern_mem_shape {s : List Char}
    {c : Nat × List (Nat × List Char)} (h : c ∈ reM containerPattern s) :
    "<div".data <+: s ∨ "<table".data <+: s ∨ "<td".data <+: s := by
  rcases reM_seq_mem h with ⟨m1, hm1, -, -, -⟩
  rcases reM_group_mem hm1 with ⟨mi, hmi, -⟩
  rcases reM_seq_mem hmi with ⟨ma, hma, mb, hmb, -⟩
  obtain ⟨hma_eq, hma_pre⟩ := reM_lit_mem hma
  rcases reM_seq_mem hmb with ⟨mc, hmc, -, -, -⟩
  rw [hma_eq] at hmc
  rcases reM_alt_mem hmc with hdiv | hrest
  · obtain ⟨-, hp⟩ := reM_lit_mem hdiv
    exact Or.inl (prefix_stack hma_pre hp)
  · rcases reM_alt_mem hrest with htab | htd
    · obtain ⟨-, hp⟩ := reM_lit_mem htab
      exact Or.inr (Or.inl (prefix_stack hma_pre hp))
    · obtain ⟨-, hp⟩ := reM_lit_mem htd
      exact Or.inr (Or.inr (prefix_stack hma_pre hp))

/-- Every candidate match of the global pattern starts with a background
declaration. -/
theorem globalPattern_mem_shape {s : List Char}
    {c : Nat × List (Nat × List Char)} (h : c ∈ reM globalPattern s) :
    "background:".data <+: s := by
  rcases reM_seq_mem h with ⟨m1, hm1, -, -, -⟩
  exact (reM_lit_mem hm1).2

/-- Reported container-pattern matches sit at container tags. -/
theorem finditer_container_shape (content : List Char) :
    ∀ m ∈ finditer containerPattern content,
      "<div".data <+: content.drop m.start ∨
      "<table".data <+: content.drop m.start ∨
      "<td".data <+: content.drop m.start := by
  intro m hm
  obtain ⟨-, -, hmat⟩ := finditer_mem_spec containerPattern content m hm
  unfold matchAt at hmat
  exact containerPattern_mem_shape
    (List.mem_of_mem_head? (Option.mem_def.mpr hmat))

/-- Reported global-pattern matches sit at background declarations. -/
theorem finditer_global_shape (content : List Char) :
    ∀ m ∈ finditer globalPattern content,
      "background:".data <+: content.drop m.start := by
  intro m hm
  obtain ⟨-, -, hmat⟩ := finditer_mem_spec globalPattern content m hm
  unfold matchAt at hmat
  exact globalPattern_mem_shape
    (List.mem_of_mem_head? (Option.mem_def.mpr hmat))

/-- A container tag at a position excludes an inline span there. -/
theorem container_not_span {s : List Char}
    (h : "<div".data <+: s ∨ "<table".data <+: s ∨ "<td".data <+: s) :
    ¬ "<span".data <+: s := by
  intro hspan
  rcases h with h | h | h
  · rcases List.prefix_or_prefix_of_prefix h hspan with h2 | h2 <;> revert h2 <;> decide
  · rcases List.prefix_or_prefix_of_prefix h hspan with h2 | h2 <;> revert h2 <;> decide
  · rcases List.prefix_or_prefix_of_prefix h hspan with h2 | h2 <;> revert h2 <;> decide

/-- C4.  The HTML transparency block: with no highlighted lines it is the
global substitution, every replaced site being a `background:` hex
declaration rewritten to the transparent declaration; with highlighted
lines it is the container-restricted substitution, every replaced site
sitting at a `<div>`, `<table>` or `<td>` opening tag — never at an
inline `<span>` — and the replacement re-emits the captured container
prefix (group 1) before the transparent declaration, so highlighted
spans' background declarations are untouched. -/
theorem sp_C4 :
    ∀ (content : List Char) (hl : List Int),
      (hl = [] →
        htmlTransparency content hl
            = reSub globalPattern replTransparent content ∧
        ∀ m ∈ finditer globalPattern content,
          "background:".data <+: content.drop m.start ∧
          replTransparent m = "background: transparent".data) ∧
      (hl ≠ [] →
        htmlTransparency content hl
            = reSub containerPattern replContainer content ∧
        ∀ m ∈ finditer containerPattern content,
          ("<div".data <+: content.drop m.start ∨
           "<table".data <+: content.drop m.start ∨
           "<td".data <+: content.drop m.start) ∧
          ¬ "<span".data <+: content.drop m.start ∧
          replContainer m
            = (cap1 m).getD [] ++ "background: transparent".data) := by
  intro content hl
  constructor
  · intro hhl
    subst hhl
    refine ⟨by unfold htmlTransparency; rw [if_neg (by simp)], ?_⟩
    intro m hm
    exact ⟨finditer_global_shape content m hm, rfl⟩
  · intro hhl
    refine ⟨by unfold htmlTransparency; rw [if_pos hhl], ?_⟩
    intro m hm
    have hshape := finditer_container_shape content m hm
    exact ⟨hshape, container_not_span hshape, rfl⟩

/-- Sample Pygments-like HTML fragment: a container `<div>` with a solid
background and a highlighted `<span>` carrying a `background-color`
tint. -/
def htmlDemoC4 : List Char :=
  "<div style=\"background: #f0f0f0\"><span style=\"background-color: #ffffcc\">x</span></div>".data

/-- Witness for C4 on the sample fragment, for both the empty and the
non-empty highlight list. -/
theorem sp_C4_witness :
    (htmlTransparency htmlDemoC4 []
        = reSub globalPattern replTransparent htmlDemoC4 ∧
      ∀ m ∈ finditer globalPattern htmlDemoC4,
        "background:".data <+: htmlDemoC4.drop m.start ∧
        replTransparent m = "background: transparent".data) ∧
    (htmlTransparency htmlDemoC4 [1]
        = reSub containerPattern replContainer htmlDemoC4 ∧
      ∀ m ∈ finditer containerPattern htmlDemoC4,
        ("<div".data <+: htmlDemoC4.drop m.start ∨
         "<table".data <+: htmlDemoC4.drop m.start ∨
         "<td".data <+: htmlDemoC4.drop m.start) ∧
        ¬ "<span".data <+: htmlDemoC4.drop m.start ∧
        replContainer m
          = (cap1 m).getD [] ++ "background: transparent".data) :=
  ⟨(sp_C4 htmlDemoC4 []).1 rfl, (sp_C4 htmlDemoC4 [1]).2 (by decide)⟩
